import Mathlib

/-!
Verification development for the streaming TAR decoder implemented in
src/base-tar-filter-impl.cxx (class BaseTarFilterImpl together with its
pure helper functions).

Modelling conventions:
* a byte is a natural number below 256 (the C code reads bytes as
  unsigned char; where a read is interpreted as unsigned char we reduce
  modulo 256);
* the C size_t and uint64_t arithmetic is modelled on Nat with explicit
  reduction modulo 2 ^ 64 (definitions smod, ssub, sadd below);
* the source/destination cursor pairs of BaseTarFilterImpl::filter are
  modelled by a list of not-yet-consumed input bytes and a remaining
  output capacity; the function returns the remaining input, the bytes
  written and the boolean result;
* the while loop of filter is modelled with an explicit fuel argument
  (filterGo); the wrapper filter supplies fuel strictly larger than the
  loop-iteration measure, so the fuel never runs out (the zero-fuel
  branch coincides with the loop-exit result and is unreachable).
-/

namespace TarFilter

/-- Width modulus of the C size_t and uint64_t types. -/
def W : Nat := 2 ^ 64

/-- Value of a size_t variable holding the mathematical integer a. -/
def smod (a : Nat) : Nat := a % W

/-- size_t subtraction a - b (wraps modulo 2 ^ 64 on underflow). -/
def ssub (a b : Nat) : Nat := (a % W + W - b % W) % W

/-- size_t addition a + b. -/
def sadd (a b : Nat) : Nat := (a + b) % W

/-- Parsing states of the internal state machine
(enum class State in base-tar-filter-impl.hxx). -/
inductive State where
  | ReadHeader
  | ReadFileData
  | SkipPadding
  | Done
deriving DecidableEq

/-- Decoder state: the data members of class BaseTarFilterImpl
(base-tar-filter-impl.hxx, lines 24-38). -/
structure Impl where
  header_buffer : List Nat
  header_bytes_read : Nat
  file_size_ : Nat
  file_bytes_read : Nat
  padding_bytes : Nat
  padding_bytes_skipped : Nat
  state : State
  current_file_name : List Nat
deriving DecidableEq

/-- A freshly constructed BaseTarFilterImpl: empty buffer, zero counters,
state ReadHeader, empty name (the in-class member initializers). -/
def init : Impl :=
  ⟨[], 0, 0, 0, 0, 0, State.ReadHeader, []⟩

/-- header_buffer.resize(512) when its size is below 512; std::vector
value-initializes the new elements to zero. -/
def resize (l : List Nat) : List Nat :=
  if l.length < 512 then l ++ List.replicate (512 - l.length) 0 else l

/-- memcpy of the block v into l starting at offset i (overwrites
positions i, i+1, ...; total on all inputs, in the program the write is
always within bounds). -/
def setRange (l : List Nat) (i : Nat) (v : List Nat) : List Nat :=
  l.take i ++ v ++ l.drop (i + v.length)

/-- is_zero_block_impl (base-tar-filter-impl.cxx lines 20-25): true when
every one of the 512 bytes of the block is zero. -/
def is_zero_block_impl (block : List Nat) : Bool :=
  (List.range 512).all fun i => block.getD i 0 == 0

/-- Loop of parse_octal_impl (lines 87-93): scan while the index is below
n and the byte is nonzero; bytes between the code of the digit zero (48)
and the digit seven (55) are accumulated in base 8 into a size_t
accumulator, every other byte is ignored.  The comparisons in the source
are on plain char, so bytes at and above 128 (negative chars) never fall
in the digit range; this is faithful for all byte values. -/
def parse_octal_go : List Nat → Nat → Nat → Nat
  | _, 0, acc => acc
  | [], _ + 1, acc => acc
  | b :: rest, n + 1, acc =>
      if b = 0 then acc
      else parse_octal_go rest n
        (if 48 ≤ b ∧ b ≤ 55 then sadd (acc * 8) (b - 48) else acc)

/-- parse_octal_impl (lines 87-93). -/
def parse_octal_impl (p : List Nat) (n : Nat) : Nat :=
  parse_octal_go p n 0

/-- First while loop of parse_base256_impl (lines 59-64): while more than
8 bytes remain, the current byte must equal the sign filler neg (0 or
255), otherwise the value overflows.  Returns none on overflow, otherwise
the remaining count, the current byte and the remaining bytes. -/
def b256_loop1 : Nat → Nat → List Nat → Nat → Option (Nat × Nat × List Nat)
  | 0, c, rest, _ => some (0, c, rest)
  | cnt + 1, c, rest, neg =>
    if 8 < cnt + 1 then
      if c ≠ neg then none
      else b256_loop1 cnt (rest.headD 0 % 256) rest.tail neg
    else some (cnt + 1, c, rest)

/-- Second loop of parse_base256_impl (lines 69-73) together with the
final accumulation (line 73): absorb the remaining cnt bytes into the
uint64_t accumulator l.  One absorption step computes
l = (l shifted left by 8) bitor c on uint64_t; as c is a byte this equals
(l mod 2 ^ 56) * 256 + c. -/
def b256_loop2 : Nat → Nat → Nat → List Nat → Nat
  | 0, l, c, _ => (l % 2 ^ 56) * 256 + c % 256
  | cnt + 1, l, c, rest =>
    if 1 < cnt + 1 then
      b256_loop2 cnt ((l % 2 ^ 56) * 256 + c % 256) (rest.headD 0 % 256) rest.tail
    else (l % 2 ^ 56) * 256 + c % 256

/-- static_cast to int64_t of a uint64_t value. -/
def toInt64 (l : Nat) : Int :=
  if l % W < 2 ^ 63 then ((l % W : Nat) : Int) else ((l % W : Nat) : Int) - 2 ^ 64

/-- parse_base256_impl (lines 43-75).  The first byte decides the sign via
its 0x40 bit; c gets its 0x80 bit forced (negative) or cleared
(non-negative), the accumulator starts at all-ones or zero.  After the
first loop the top bit of the current byte must agree with the sign,
otherwise the value overflows; overflow clamps to the int64_t minimum or
maximum.  Bit operations on the byte c are written arithmetically:
c and 0x7f is c mod 128, c or 0x80 is c mod 128 + 128, the 0x40 test is
64 ≤ c mod 128, and the test that the 0x80 bits of c and neg differ is
c / 128 ≠ neg / 128. -/
def parse_base256_impl (p : List Nat) (char_cnt : Nat) : Int :=
  let c0 := p.headD 0 % 256
  let neg : Nat := if 64 ≤ c0 % 128 then 255 else 0
  let c1 : Nat := if 64 ≤ c0 % 128 then c0 % 128 + 128 else c0 % 128
  let l0 : Nat := if 64 ≤ c0 % 128 then W - 1 else 0
  match b256_loop1 char_cnt c1 p.tail neg with
  | none => if neg = 255 then -(2 ^ 63) else 2 ^ 63 - 1
  | some (cnt, c, rest) =>
    if c / 128 ≠ neg / 128 then (if neg = 255 then -(2 ^ 63) else 2 ^ 63 - 1)
    else toInt64 (b256_loop2 cnt l0 c rest)

/-- The 12-byte size field of the TAR header: offset 124 (name 100 + mode
8 + uid 8 + gid 8), length 12 (tar-header.hxx). -/
def sizeField (block : List Nat) : List Nat :=
  (block.drop 124).take 12

/-- parse_file_size_impl (lines 105-111): base-256 when the top bit of the
first size byte is set, octal text otherwise; the base-256 int64_t result
is static_cast to size_t (reduction modulo 2 ^ 64). -/
def parse_file_size_impl (size : List Nat) : Nat :=
  if 128 ≤ size.headD 0 % 256 then
    (parse_base256_impl size 12 % (W : Int)).toNat
  else
    parse_octal_impl size 12

/-- extract_file_name_impl (lines 124-131): the name bytes up to the first
zero byte, at most the 100 bytes of the name field (offset 0). -/
def extract_file_name_impl (block : List Nat) : List Nat :=
  (block.take 100).takeWhile fun b => b ≠ 0

/-- is_regular_file (lines 142-144): the typeflag byte (offset 156) equals
the code of the digit zero (48) or is the zero byte. -/
def is_regular_file (block : List Nat) : Bool :=
  block.getD 156 0 == 48 || block.getD 156 0 == 0

/-- Padding amount computed at line 209: (512 - size mod 512) mod 512 in
size_t arithmetic (no underflow occurs, so plain Nat arithmetic agrees). -/
def paddingFor (s : Nat) : Nat :=
  (512 - s % 512) % 512

/-- Net effect on the decoder state of completing a 512-byte header that
is not the zero block (lines 205-218): parse size and name, reset the
per-entry counters, compute the padding, choose the next state by the
typeflag and zero the size for skipped entries, reset header_bytes_read.
Every member is (re)assigned, so the result does not depend on the prior
state. -/
def afterHeader (hb : List Nat) : Impl :=
  let fs := parse_file_size_impl (sizeField hb)
  let regular := is_regular_file hb
  { header_buffer := hb
    header_bytes_read := 0
    file_size_ := if regular then fs else 0
    file_bytes_read := 0
    padding_bytes := paddingFor fs
    padding_bytes_skipped := 0
    state := if regular then State.ReadFileData else State.SkipPadding
    current_file_name := extract_file_name_impl hb }

/-- Net effect of one ReadHeader loop iteration that copies the byte list
c into the header buffer (lines 188-220): resize the buffer to 512 bytes,
memcpy c at offset header_bytes_read, advance the counter; when it
reaches 512, either detect the zero block (state Done, counter kept at
512) or process the completed header. -/
def rhAccum (i : Impl) (c : List Nat) : Impl :=
  let hb := setRange (resize i.header_buffer) i.header_bytes_read c
  let hbr := sadd i.header_bytes_read c.length
  if hbr = 512 then
    if is_zero_block_impl hb then
      { i with header_buffer := hb, header_bytes_read := hbr, state := State.Done }
    else afterHeader hb
  else
    { i with header_buffer := hb, header_bytes_read := hbr }

/-- Net effect of one ReadFileData loop iteration that copies t bytes
(lines 223-237): advance file_bytes_read and move to SkipPadding exactly
when it reaches file_size_. -/
def rfdAccum (i : Impl) (t : Nat) : Impl :=
  let fbr := sadd i.file_bytes_read t
  { i with file_bytes_read := fbr
           state := if fbr = smod i.file_size_ then State.SkipPadding else i.state }

/-- Net effect of one SkipPadding loop iteration that skips t bytes
(lines 240-250): advance padding_bytes_skipped and move back to
ReadHeader exactly when it reaches padding_bytes. -/
def spAccum (i : Impl) (t : Nat) : Impl :=
  let pbs := sadd i.padding_bytes_skipped t
  { i with padding_bytes_skipped := pbs
           state := if pbs = smod i.padding_bytes then State.ReadHeader else i.state }

/-- Result of one BaseTarFilterImpl::filter call: final decoder state,
remaining (unconsumed) input bytes, bytes written to the destination, and
the boolean return value. -/
structure FilterResult where
  impl : Impl
  rest : List Nat
  out : List Nat
  more : Bool
deriving DecidableEq

/-- The while loop of BaseTarFilterImpl::filter (lines 186-258), with one
unit of fuel per loop iteration.  The loop runs while input remains and
output space remains; each iteration handles the current state:
ReadHeader copies min(512 - header_bytes_read, available) bytes into the
header buffer (an rhAccum step; when the completed block is the zero
block the function returns false at once), ReadFileData copies
min(remaining, available, space) input bytes to the output, SkipPadding
consumes min(remaining, available) input bytes, and Done returns false.
The zero-fuel result equals the loop-exit result and is never reached
when the fuel exceeds the iteration measure. -/
def filterGo : Nat → Impl → List Nat → Nat → FilterResult
  | 0, impl, src, _ => ⟨impl, src, [], true⟩
  | fuel + 1, impl, src, dsp =>
    if src = [] ∨ dsp = 0 then ⟨impl, src, [], true⟩
    else
      match impl.state with
      | State.ReadHeader =>
        let t := min (ssub 512 impl.header_bytes_read) src.length
        let i2 := rhAccum impl (src.take t)
        if i2.state = State.Done then ⟨i2, src.drop t, [], false⟩
        else filterGo fuel i2 (src.drop t) dsp
      | State.ReadFileData =>
        let t := min (ssub impl.file_size_ impl.file_bytes_read) (min src.length dsp)
        let r := filterGo fuel (rfdAccum impl t) (src.drop t) (dsp - t)
        ⟨r.impl, r.rest, src.take t ++ r.out, r.more⟩
      | State.SkipPadding =>
        let t := min (ssub impl.padding_bytes impl.padding_bytes_skipped) src.length
        filterGo fuel (spAccum impl t) (src.drop t) dsp
      | State.Done => ⟨impl, src, [], false⟩

/-- BaseTarFilterImpl::filter (lines 183-259).  The flush parameter is
accepted and ignored, as in the source.  The fuel strictly dominates the
loop-iteration measure, so the zero-fuel branch of filterGo is never
taken. -/
def filter (impl : Impl) (src : List Nat) (dsp : Nat) (_flush : Bool) : FilterResult :=
  filterGo (8 * (src.length + dsp) + 8) impl src dsp

/-- BaseTarFilterImpl::close (lines 267-275): reset the state, the header
counter, the file counter, the skipped-padding counter and the size,
clear the buffer and the name.  Note that padding_bytes is not assigned. -/
def close (i : Impl) : Impl :=
  { i with state := State.ReadHeader
           header_bytes_read := 0
           file_bytes_read := 0
           padding_bytes_skipped := 0
           file_size_ := 0
           header_buffer := []
           current_file_name := [] }

/-! Reference byte machine.  The loop of filter performs, besides its
byte-consuming iterations, transition-only iterations that consume
nothing: a ReadFileData iteration whose remaining count is zero moves to
SkipPadding, and a SkipPadding iteration whose remaining count is zero
moves back to ReadHeader.  settle1 performs one such pending transition,
settle performs all of them (at most two can chain). -/

/-- One transition-only loop iteration, when one is pending. -/
def settle1 (i : Impl) : Option Impl :=
  match i.state with
  | State.ReadFileData =>
    if ssub i.file_size_ i.file_bytes_read = 0 then some (rfdAccum i 0) else none
  | State.SkipPadding =>
    if ssub i.padding_bytes i.padding_bytes_skipped = 0 then some (spAccum i 0) else none
  | _ => none

/-- Iterate settle1 at most n times. -/
def settleN : Nat → Impl → Impl
  | 0, i => i
  | n + 1, i =>
    match settle1 i with
    | none => i
    | some j => settleN n j

/-- Perform all pending transition-only iterations (chains have length at
most two: ReadFileData to SkipPadding to ReadHeader). -/
def settle (i : Impl) : Impl := settleN 3 i

/-- Result of the reference byte machine: final decoder state, leftover
input (nonempty only when the end marker was reached) and output bytes. -/
structure MRes where
  impl : Impl
  lo : List Nat
  out : List Nat
deriving DecidableEq

/-- Reference byte machine: feed the decoder one byte at a time with
unbounded output space.  Each step first performs the pending
transition-only iterations and then consumes one byte exactly as the
corresponding one-byte loop iteration of filter does.  Once the state is
Done the remaining bytes are left unconsumed. -/
def runBytes : Impl → List Nat → MRes
  | impl, [] => ⟨impl, [], []⟩
  | impl, b :: rest =>
    match (settle impl).state with
    | State.Done => ⟨settle impl, b :: rest, []⟩
    | State.ReadHeader => runBytes (rhAccum (settle impl) [b]) rest
    | State.ReadFileData =>
      let r := runBytes (rfdAccum (settle impl) 1) rest
      ⟨r.impl, r.lo, b :: r.out⟩
    | State.SkipPadding => runBytes (spAccum (settle impl) 1) rest

/-- Result of a driver run: final decoder state, offered but unconsumed
input, concatenated output, and whether the decoder signalled stop. -/
structure DriveRes where
  impl : Impl
  window : List Nat
  out : List Nat
  stopped : Bool
deriving DecidableEq

/-- A driver that repeatedly calls filter until it signals stop or the
call schedule is exhausted.  Each schedule entry offers one more input
chunk and one fresh output capacity; unconsumed input stays in the
window, as the cursor interface of filter leaves it in the caller's
buffer. -/
def drive : Impl → List Nat → List (List Nat × Nat) → DriveRes
  | impl, window, [] => ⟨impl, window, [], false⟩
  | impl, window, (chunk, dsp) :: calls =>
    let r := filter impl (window ++ chunk) dsp false
    if r.more then
      let d := drive r.impl r.rest calls
      ⟨d.impl, d.window, r.out ++ d.out, d.stopped⟩
    else
      ⟨r.impl, r.rest, r.out, true⟩

/-- Concatenation of the input chunks of a call schedule. -/
def chunks : List (List Nat × Nat) → List Nat
  | [] => []
  | (c, _) :: calls => c ++ chunks calls

/-- Loop-iteration measure for filterGo: consuming or producing
iterations decrease the byte total, transition-only iterations decrease
the state weight, and a header-completing iteration that consumes
nothing resets header_bytes_read from 512 to 0. -/
def stateW : State → Nat
  | State.ReadFileData => 3
  | State.SkipPadding => 2
  | State.ReadHeader => 1
  | State.Done => 0

/-- Header-completion flag of the measure. -/
def flagOf (i : Impl) : Nat :=
  if smod i.header_bytes_read = 512 then 1 else 0

/-- Combined loop measure: strictly decreases along every recursive call
of filterGo. -/
def mu (i : Impl) (src : List Nat) (dsp : Nat) : Nat :=
  8 * (src.length + dsp) + 4 * flagOf i + stateW i.state

/-- Well-formedness invariant on decoder states, maintained by filter
from the freshly constructed state: the buffer is empty or holds exactly
512 bytes, the header counter is below 512 outside the Done state and
never above 512, counters fit in size_t and never exceed their bounds. -/
def Inv (i : Impl) : Prop :=
  (i.header_buffer.length = 0 ∨ i.header_buffer.length = 512) ∧
  (i.state ≠ State.Done → i.header_bytes_read < 512) ∧
  i.header_bytes_read ≤ 512 ∧
  i.file_size_ < W ∧
  i.file_bytes_read ≤ i.file_size_ ∧
  i.padding_bytes < 512 ∧
  i.padding_bytes_skipped ≤ i.padding_bytes

instance (i : Impl) : Decidable (Inv i) := by
  unfold Inv; infer_instance

/-! Specification-side definitions, written from the words of the
specification, for the refinement-style claims. -/

/-- Modelled from the spec: octal field parse as the specification words
it - scan up to n bytes, stop at the first zero byte, keep only the bytes
in the digit range 48..55 and fold them in base 8. -/
def octalSpec (p : List Nat) (n : Nat) : Nat :=
  ((((p.take n).takeWhile fun b => b ≠ 0).filter
      fun b => 48 ≤ b && b ≤ 55).foldl (fun acc b => acc * 8 + (b - 48)) 0)

/-- Big-endian value of a byte list. -/
def beNat (l : List Nat) : Nat :=
  l.foldl (fun a b => a * 256 + b % 256) 0

/-- Modelled from the spec: the 12-byte base-256 encoding of an integer -
its two's-complement residue modulo 2 ^ 96 in big-endian bytes, with the
high bit of the first byte set as the base-256 marker. -/
def encodeBase256 (v : Int) : List Nat :=
  let u := (v % (2 ^ 96 : Int)).toNat
  let hi := u / 2 ^ 88 % 256
  [ (if hi < 128 then hi + 128 else hi)
  , u / 2 ^ 80 % 256, u / 2 ^ 72 % 256, u / 2 ^ 64 % 256
  , u / 2 ^ 56 % 256, u / 2 ^ 48 % 256, u / 2 ^ 40 % 256
  , u / 2 ^ 32 % 256, u / 2 ^ 24 % 256, u / 2 ^ 16 % 256
  , u / 2 ^ 8 % 256, u % 256 ]

/-- Modelled from the spec: the signed value denoted by a 12-byte
base-256 field - the sign is the 0x40 bit of the first byte, the
magnitude is the big-endian two's-complement value once the 0x80 marker
bit of the first byte is replaced by a copy of the sign bit. -/
def signedFieldVal (bs : List Nat) : Int :=
  let b0 := bs.headD 0
  let b0x := if 64 ≤ b0 % 128 then b0 % 128 + 128 else b0 % 128
  let u := beNat (b0x :: bs.tail)
  if u < 2 ^ 95 then (u : Int) else (u : Int) - 2 ^ 96

/-- Clamp an integer to the int64_t range. -/
def clamp64 (v : Int) : Int :=
  max (-(2 ^ 63)) (min (2 ^ 63 - 1) v)

/-- Concrete 512-byte header block of a directory-type entry: name byte
100, octal size field holding the digit one (49) at offset 124, typeflag
byte 53 (the digit five, directory) at offset 156; declared size 1. -/
def exHeaderDir : List Nat :=
  (((List.replicate 512 0).set 0 100).set 124 49).set 156 53

/-- Concrete 512-byte header block of a regular-file entry: name byte 97,
octal size field holding the digit three (51) at offset 124, typeflag
byte 48 (the digit zero, regular file) at offset 156; declared size 3. -/
def exHeaderReg : List Nat :=
  (((List.replicate 512 0).set 0 97).set 124 51).set 156 48

/-! Arithmetic facts about the size_t model. -/

theorem W_eq : W = 18446744073709551616 := by norm_num [W]

theorem smod_of_lt {a : Nat} (h : a < W) : smod a = a :=
  Nat.mod_eq_of_lt h

theorem ssub_of_le {a b : Nat} (hba : b ≤ a) (ha : a < W) : ssub a b = a - b := by
  unfold ssub
  rw [Nat.mod_eq_of_lt ha, Nat.mod_eq_of_lt (lt_of_le_of_lt hba ha)]
  rw [W_eq] at ha ⊢
  omega

theorem sadd_of_lt {a b : Nat} (h : a + b < W) : sadd a b = a + b := by
  unfold sadd
  exact Nat.mod_eq_of_lt h

theorem lt_W_of_le_512 {a : Nat} (h : a ≤ 512) : a < W := by
  rw [W_eq]; omega

theorem ssub_512 {b : Nat} (h : b ≤ 512) : ssub 512 b = 512 - b :=
  ssub_of_le h (lt_W_of_le_512 (le_refl 512))

theorem paddingFor_lt (s : Nat) : paddingFor s < 512 := by
  unfold paddingFor; omega

/-! Unfolding lemmas for the filter loop. -/

theorem filterGo_exit {impl : Impl} {src : List Nat} {dsp : Nat}
    (h : src = [] ∨ dsp = 0) :
    ∀ fuel, filterGo fuel impl src dsp = ⟨impl, src, [], true⟩
  | 0 => rfl
  | fuel + 1 => by simp only [filterGo]; rw [if_pos h]

theorem filterGo_rh (fuel : Nat) (impl : Impl) (src : List Nat) (dsp : Nat)
    (hs : impl.state = State.ReadHeader) (h : ¬(src = [] ∨ dsp = 0)) :
    filterGo (fuel + 1) impl src dsp =
      (let t := min (ssub 512 impl.header_bytes_read) src.length
       let i2 := rhAccum impl (src.take t)
       if i2.state = State.Done then ⟨i2, src.drop t, [], false⟩
       else filterGo fuel i2 (src.drop t) dsp) := by
  simp only [filterGo]
  rw [if_neg h, hs]

theorem filterGo_rfd (fuel : Nat) (impl : Impl) (src : List Nat) (dsp : Nat)
    (hs : impl.state = State.ReadFileData) (h : ¬(src = [] ∨ dsp = 0)) :
    filterGo (fuel + 1) impl src dsp =
      (let t := min (ssub impl.file_size_ impl.file_bytes_read) (min src.length dsp)
       let r := filterGo fuel (rfdAccum impl t) (src.drop t) (dsp - t)
       ⟨r.impl, r.rest, src.take t ++ r.out, r.more⟩) := by
  simp only [filterGo]
  rw [if_neg h, hs]

theorem filterGo_sp (fuel : Nat) (impl : Impl) (src : List Nat) (dsp : Nat)
    (hs : impl.state = State.SkipPadding) (h : ¬(src = [] ∨ dsp = 0)) :
    filterGo (fuel + 1) impl src dsp =
      (let t := min (ssub impl.padding_bytes impl.padding_bytes_skipped) src.length
       filterGo fuel (spAccum impl t) (src.drop t) dsp) := by
  simp only [filterGo]
  rw [if_neg h, hs]

theorem filterGo_done (fuel : Nat) (impl : Impl) (src : List Nat) (dsp : Nat)
    (hs : impl.state = State.Done) (h : ¬(src = [] ∨ dsp = 0)) :
    filterGo (fuel + 1) impl src dsp = ⟨impl, src, [], false⟩ := by
  simp only [filterGo]
  rw [if_neg h, hs]

/-! Cursor bounds for the filter loop (used for claim C6). -/

theorem filterGo_bounds : ∀ (fuel : Nat) (impl : Impl) (src : List Nat) (dsp : Nat),
    ∃ k, k ≤ src.length ∧ (filterGo fuel impl src dsp).rest = src.drop k ∧
      (filterGo fuel impl src dsp).out.length ≤ dsp := by
  intro fuel
  induction fuel with
  | zero =>
    intro impl src dsp
    exact ⟨0, Nat.zero_le _, by simp [filterGo], by simp [filterGo]⟩
  | succ fuel ih =>
    intro impl src dsp
    by_cases h : src = [] ∨ dsp = 0
    · rw [filterGo_exit h]
      exact ⟨0, Nat.zero_le _, by simp, by simp⟩
    · cases hs : impl.state with
      | ReadHeader =>
        rw [filterGo_rh fuel impl src dsp hs h]
        simp only []
        set t := min (ssub 512 impl.header_bytes_read) src.length with ht
        have htle : t ≤ src.length := min_le_right _ _
        by_cases hd : (rhAccum impl (src.take t)).state = State.Done
        · rw [if_pos hd]
          exact ⟨t, htle, rfl, by simp⟩
        · rw [if_neg hd]
          obtain ⟨k, hk, hrest, hout⟩ := ih (rhAccum impl (src.take t)) (src.drop t) dsp
          refine ⟨k + t, ?_, ?_, hout⟩
          · have := src.length_drop t
            omega
          · rw [hrest, List.drop_drop, Nat.add_comm t k]
      | ReadFileData =>
        rw [filterGo_rfd fuel impl src dsp hs h]
        simp only []
        set t := min (ssub impl.file_size_ impl.file_bytes_read) (min src.length dsp) with ht
        have htle : t ≤ src.length := le_trans (min_le_right _ _) (min_le_left _ _)
        have htd : t ≤ dsp := le_trans (min_le_right _ _) (min_le_right _ _)
        obtain ⟨k, hk, hrest, hout⟩ := ih (rfdAccum impl t) (src.drop t) (dsp - t)
        refine ⟨k + t, ?_, ?_, ?_⟩
        · have := src.length_drop t
          omega
        · rw [hrest, List.drop_drop, Nat.add_comm t k]
        · simp only [List.length_append, List.length_take]
          omega
      | SkipPadding =>
        rw [filterGo_sp fuel impl src dsp hs h]
        simp only []
        set t := min (ssub impl.padding_bytes impl.padding_bytes_skipped) src.length with ht
        have htle : t ≤ src.length := min_le_right _ _
        obtain ⟨k, hk, hrest, hout⟩ := ih (spAccum impl t) (src.drop t) dsp
        refine ⟨k + t, ?_, ?_, hout⟩
        · have := src.length_drop t
          omega
        · rw [hrest, List.drop_drop, Nat.add_comm t k]
      | Done =>
        rw [filterGo_done fuel impl src dsp hs h]
        exact ⟨0, Nat.zero_le _, by simp, by simp⟩

/-- C6: for every call to advance, with any decoder state and any buffer
bounds, the input cursor moves forward by some amount k bounded by the
supplied input (the remaining input is the k-dropped source, so the
cursor is non-decreasing and never passes src_end), and the number of
bytes written never exceeds the destination space supplied for the
call (so the output cursor is non-decreasing and never passes
dest_end). -/
theorem claim_C6 : ∀ (impl : Impl) (src : List Nat) (dsp : Nat) (flush : Bool),
    ∃ k, k ≤ src.length ∧ (filter impl src dsp flush).rest = src.drop k ∧
      (filter impl src dsp flush).out.length ≤ dsp := by
  intro impl src dsp flush
  exact filterGo_bounds _ impl src dsp

/-- C8: the padding computed when a header is parsed is
(512 - size mod 512) mod 512, always at most 511, and takes the values
0, 511, 1, 0, 511, 0 at the declared sizes 0, 1, 511, 512, 513, 1024. -/
theorem claim_C8 :
    (∀ s : Nat, paddingFor s = (512 - s % 512) % 512 ∧ paddingFor s ≤ 511) ∧
    (∀ hb : List Nat,
      (afterHeader hb).padding_bytes = paddingFor (parse_file_size_impl (sizeField hb))) ∧
    paddingFor 0 = 0 ∧ paddingFor 1 = 511 ∧ paddingFor 511 = 1 ∧
    paddingFor 512 = 0 ∧ paddingFor 513 = 511 ∧ paddingFor 1024 = 0 := by
  refine ⟨fun s => ⟨rfl, ?_⟩, fun hb => rfl, by decide, by decide, by decide,
    by decide, by decide, by decide⟩
  unfold paddingFor
  omega

/-- C10: a call with an empty source range or an empty destination range
returns true and changes nothing, whatever the decoder state (including
the Done state, where such a call returns true rather than the stop
signal). -/
theorem claim_C10 : ∀ (impl : Impl) (src : List Nat) (dsp : Nat) (flush : Bool),
    src = [] ∨ dsp = 0 → filter impl src dsp flush = ⟨impl, src, [], true⟩ := by
  intro impl src dsp flush h
  exact filterGo_exit h _

/-- Witness for C10 at a concrete input: the Done-state decoder with an
empty source returns true and is untouched. -/
theorem witness_C10 :
    filter { init with state := State.Done } [] 5 false =
      ⟨{ init with state := State.Done }, [], [], true⟩ :=
  claim_C10 { init with state := State.Done } [] 5 false (Or.inl rfl)

/-- Counterexample to C5 as stated: in the Done state with input
available but no output space supplied, the call returns true, not
false (the loop is never entered, so the stop signal is not produced). -/
theorem counterexample_C5 :
    filter { init with state := State.Done } [0] 0 false =
      ⟨{ init with state := State.Done }, [0], [], true⟩ := by
  decide

/-- C5 (amended): a call made in the Done state with a nonempty input
range and nonzero output space is a no-op - it consumes nothing,
produces nothing, changes no state - and returns false immediately.
(With an empty input range or zero output space the call is still a
no-op but returns true; see the counterexample.) -/
theorem claim_C5 : ∀ (impl : Impl) (src : List Nat) (dsp : Nat) (flush : Bool),
    impl.state = State.Done → src ≠ [] → dsp ≠ 0 →
    filter impl src dsp flush = ⟨impl, src, [], false⟩ := by
  intro impl src dsp flush hs h1 h2
  unfold filter
  have hpos : ∃ m, 8 * (src.length + dsp) + 8 = m + 1 := ⟨8 * (src.length + dsp) + 7, by omega⟩
  obtain ⟨m, hm⟩ := hpos
  rw [hm]
  exact filterGo_done m impl src dsp hs (by simp [h1, h2])

/-- Witness for C5 at a concrete input. -/
theorem witness_C5 :
    filter { init with state := State.Done } [7] 3 false =
      ⟨{ init with state := State.Done }, [7], [], false⟩ :=
  claim_C5 { init with state := State.Done } [7] 3 false rfl (by decide) (by decide)

/-! Characterization of the octal parser (claim C9). -/

theorem parse_octal_go_eq : ∀ (p : List Nat) (n acc : Nat),
    parse_octal_go p n acc =
      (((p.take n).takeWhile fun b => b ≠ 0).filter fun b => 48 ≤ b && b ≤ 55).foldl
        (fun a b => sadd (a * 8) (b - 48)) acc := by
  intro p
  induction p with
  | nil => intro n acc; cases n <;> simp [parse_octal_go]
  | cons b rest ih =>
    intro n acc
    cases n with
    | zero => simp [parse_octal_go]
    | succ n =>
      by_cases hb : b = 0
      · subst hb
        simp [parse_octal_go]
      · rw [show (b :: rest).take (n + 1) = b :: rest.take n from rfl]
        rw [List.takeWhile_cons_of_pos (by simp [hb])]
        by_cases hd : 48 ≤ b ∧ b ≤ 55
        · rw [List.filter_cons_of_pos (by simp [hd.1, hd.2])]
          simp only [parse_octal_go, if_neg hb, if_pos hd, List.foldl_cons]
          exact ih n _
        · rw [List.filter_cons_of_neg (by simpa using hd)]
          simp only [parse_octal_go, if_neg hb, if_neg hd]
          exact ih n _

theorem foldl_sadd_eq : ∀ (l : List Nat) (acc : Nat),
    l.foldl (fun a b => sadd (a * 8) (b - 48)) (acc % W) =
      (l.foldl (fun a b => a * 8 + (b - 48)) acc) % W := by
  intro l
  induction l with
  | nil => intro acc; simp
  | cons b rest ih =>
    intro acc
    simp only [List.foldl_cons]
    have hstep : sadd (acc % W * 8) (b - 48) = (acc * 8 + (b - 48)) % W := by
      unfold sadd
      rw [W_eq]
      omega
    rw [hstep]
    exact ih (acc * 8 + (b - 48))

/-- C9: the octal parser scans at most n bytes, stops at the first zero
byte, folds every byte in the digit range 48..55 into a base-8 size_t
accumulator (result := result * 8 + digit, on the 64-bit size_t), leaves
the accumulator unchanged on every other byte before the first zero, and
is total - it never rejects an input.  The right-hand side is the
specification-side fold, reduced modulo the size_t width. -/
theorem claim_C9 : ∀ (p : List Nat) (n : Nat),
    parse_octal_impl p n = octalSpec p n % W := by
  intro p n
  unfold parse_octal_impl octalSpec
  rw [parse_octal_go_eq]
  have h := foldl_sadd_eq
    (((p.take n).takeWhile fun b => b ≠ 0).filter fun b => 48 ≤ b && b ≤ 55) 0
  rw [Nat.zero_mod] at h
  exact h

/-! Facts about resize and setRange. -/

theorem resize_nil : resize [] = List.replicate 512 0 := by
  unfold resize
  norm_num

theorem resize_full {l : List Nat} (h : l.length = 512) : resize l = l := by
  unfold resize
  rw [h]
  norm_num

theorem setRange_zero_fill {hb : List Nat} {hbr : Nat}
    (hlen : hb.length = 0 ∨ hb.length = 512) (hhbr : hbr ≤ 512)
    (hz : ∀ b ∈ hb.take hbr, b = 0) :
    setRange (resize hb) hbr (List.replicate (512 - hbr) 0) = List.replicate 512 0 := by
  rcases hlen with h0 | h512
  · rw [List.length_eq_zero.mp h0, resize_nil]
    unfold setRange
    rw [List.take_replicate, List.length_replicate, List.drop_replicate]
    have h1 : min hbr 512 = hbr := by omega
    have h2 : 512 - (hbr + (512 - hbr)) = 0 := by omega
    rw [h1, h2, List.replicate_zero, List.append_nil, ← List.replicate_add]
    congr 1
    omega
  · rw [resize_full h512]
    unfold setRange
    have htake : hb.take hbr = List.replicate hbr 0 := by
      rw [List.eq_replicate]
      refine ⟨?_, hz⟩
      rw [List.length_take, h512]
      omega
    have hdrop : hb.drop (hbr + (List.replicate (512 - hbr) (0 : Nat)).length) = [] := by
      rw [List.drop_eq_nil_iff_le, h512, List.length_replicate]
      omega
    rw [htake, hdrop, List.append_nil, ← List.replicate_add]
    congr 1
    omega

set_option maxRecDepth 4096 in
theorem is_zero_block_replicate : is_zero_block_impl (List.replicate 512 0) = true := by
  decide

/-! Behaviour of a ReadHeader call that completes an all-zero block
(claim C4). -/

/-- C4: whenever the 512 header bytes accumulate to the all-zero block -
the already-buffered bytes are zero and the next 512 - header_bytes_read
input bytes are zero - a single advance call moves the decoder to the
Done state and returns false at once, leaving every byte after the
single zero block unread: one all-zero block suffices, a second is never
inspected. -/
theorem claim_C4 : ∀ (impl : Impl) (rest : List Nat) (dsp : Nat) (flush : Bool),
    impl.state = State.ReadHeader →
    impl.header_bytes_read < 512 →
    (impl.header_buffer.length = 0 ∨ impl.header_buffer.length = 512) →
    (∀ b ∈ impl.header_buffer.take impl.header_bytes_read, b = 0) →
    0 < dsp →
    filter impl (List.replicate (512 - impl.header_bytes_read) 0 ++ rest) dsp flush =
      ⟨{ impl with header_buffer := List.replicate 512 0, header_bytes_read := 512,
                   state := State.Done }, rest, [], false⟩ := by
  intro impl rest dsp flush hs hhbr hlen hz hdsp
  unfold filter
  have hlrep : (List.replicate (512 - impl.header_bytes_read) (0 : Nat)).length =
      512 - impl.header_bytes_read := List.length_replicate _ _
  have hsne : List.replicate (512 - impl.header_bytes_read) (0 : Nat) ++ rest ≠ [] := by
    intro hc
    have := congrArg List.length hc
    simp [hlrep] at this
    omega
  obtain ⟨m, hm⟩ : ∃ m, 8 * ((List.replicate (512 - impl.header_bytes_read) (0 : Nat)
        ++ rest).length + dsp) + 8 = m + 1 :=
    ⟨8 * ((List.replicate (512 - impl.header_bytes_read) (0 : Nat) ++ rest).length
        + dsp) + 7, by omega⟩
  rw [hm]
  rw [filterGo_rh _ _ _ _ hs (not_or.mpr ⟨hsne, by omega⟩)]
  simp only []
  have ht : min (ssub 512 impl.header_bytes_read)
      (List.replicate (512 - impl.header_bytes_read) (0 : Nat) ++ rest).length =
      512 - impl.header_bytes_read := by
    rw [ssub_512 (le_of_lt hhbr), List.length_append, hlrep]
    omega
  rw [ht]
  have htake : (List.replicate (512 - impl.header_bytes_read) (0 : Nat) ++ rest).take
      (512 - impl.header_bytes_read) = List.replicate (512 - impl.header_bytes_read) 0 :=
    List.take_left' hlrep
  have hdrop : (List.replicate (512 - impl.header_bytes_read) (0 : Nat) ++ rest).drop
      (512 - impl.header_bytes_read) = rest :=
    List.drop_left' hlrep
  rw [htake, hdrop]
  have hacc : rhAccum impl (List.replicate (512 - impl.header_bytes_read) 0) =
      { impl with header_buffer := List.replicate 512 0, header_bytes_read := 512,
                  state := State.Done } := by
    unfold rhAccum
    rw [setRange_zero_fill hlen (le_of_lt hhbr) hz, hlrep]
    have hsadd : sadd impl.header_bytes_read (512 - impl.header_bytes_read) = 512 := by
      rw [sadd_of_lt (by rw [W_eq]; omega)]
      omega
    rw [hsadd, if_pos rfl, is_zero_block_replicate, if_pos rfl]
  rw [hacc, if_pos rfl]

/-- Witness for C4 at a concrete input: from the fresh decoder, a single
all-zero 512-byte block followed by a nonzero byte stops the decoder at
once, leaving the trailing byte unread. -/
theorem witness_C4 :
    filter init (List.replicate 512 0 ++ [7]) 4 false =
      ⟨{ init with header_buffer := List.replicate 512 0, header_bytes_read := 512,
                   state := State.Done }, [7], [], false⟩ := by
  have h := claim_C4 init [7] 4 false rfl (by decide) (Or.inl rfl) (by decide) (by decide)
  rw [show (512 - init.header_bytes_read) = 512 from rfl] at h
  exact h

/-! Facts about settle. -/

theorem settle1_none_of_state {i : Impl}
    (h : i.state = State.ReadHeader ∨ i.state = State.Done) : settle1 i = none := by
  unfold settle1
  rcases h with h | h <;> rw [h]

theorem settleN_of_none {i : Impl} (h : settle1 i = none) :
    ∀ n, settleN n i = i
  | 0 => rfl
  | n + 1 => by unfold settleN; rw [h]

theorem settle_of_rh {i : Impl} (h : i.state = State.ReadHeader) : settle i = i :=
  settleN_of_none (settle1_none_of_state (Or.inl h)) 3

theorem settle_of_done {i : Impl} (h : i.state = State.Done) : settle i = i :=
  settleN_of_none (settle1_none_of_state (Or.inr h)) 3

theorem settle_eval (i : Impl) :
    settle i =
      match settle1 i with
      | none => i
      | some j =>
        match settle1 j with
        | none => j
        | some k =>
          match settle1 k with
          | none => k
          | Option.some m => m := rfl

/-! The padding_bytes member survives close but is overwritten by the
next header parse before it is ever read (claim C3). -/

theorem rhAccum_pb (i : Impl) (p : Nat) (c : List Nat) :
    rhAccum { i with padding_bytes := p } c =
      (let hb := setRange (resize i.header_buffer) i.header_bytes_read c
       let hbr := sadd i.header_bytes_read c.length
       if hbr = 512 then
         if is_zero_block_impl hb then
           { i with padding_bytes := p, header_buffer := hb, header_bytes_read := hbr,
                    state := State.Done }
         else afterHeader hb
       else { i with padding_bytes := p, header_buffer := hb, header_bytes_read := hbr }) :=
  rfl

theorem filterGo_pb_frame : ∀ (fuel : Nat) (hb0 : List Nat)
    (hbr0 fs0 fbr0 pbs0 : Nat) (nm0 : List Nat) (pb1 pb2 : Nat)
    (src : List Nat) (dsp : Nat),
    (filterGo fuel ⟨hb0, hbr0, fs0, fbr0, pb1, pbs0, State.ReadHeader, nm0⟩ src dsp).rest =
      (filterGo fuel ⟨hb0, hbr0, fs0, fbr0, pb2, pbs0, State.ReadHeader, nm0⟩ src dsp).rest ∧
    (filterGo fuel ⟨hb0, hbr0, fs0, fbr0, pb1, pbs0, State.ReadHeader, nm0⟩ src dsp).out =
      (filterGo fuel ⟨hb0, hbr0, fs0, fbr0, pb2, pbs0, State.ReadHeader, nm0⟩ src dsp).out ∧
    (filterGo fuel ⟨hb0, hbr0, fs0, fbr0, pb1, pbs0, State.ReadHeader, nm0⟩ src dsp).more =
      (filterGo fuel ⟨hb0, hbr0, fs0, fbr0, pb2, pbs0, State.ReadHeader, nm0⟩ src dsp).more := by
  intro fuel
  induction fuel with
  | zero => intro hb0 hbr0 fs0 fbr0 pbs0 nm0 pb1 pb2 src dsp; exact ⟨rfl, rfl, rfl⟩
  | succ fuel ih =>
    intro hb0 hbr0 fs0 fbr0 pbs0 nm0 pb1 pb2 src dsp
    by_cases h : src = [] ∨ dsp = 0
    · rw [filterGo_exit h, filterGo_exit h]
      exact ⟨rfl, rfl, rfl⟩
    · rw [filterGo_rh fuel _ src dsp rfl h, filterGo_rh fuel _ src dsp rfl h]
      simp only [rhAccum]
      by_cases h512 : sadd hbr0 ((src.take (min (ssub 512 hbr0) src.length)).length) = 512
      · rw [if_pos h512, if_pos h512]
        by_cases hzb : is_zero_block_impl
            (setRange (resize hb0) hbr0
              (src.take (min (ssub 512 hbr0) src.length))) = true
        · rw [if_pos hzb, if_pos hzb, if_pos rfl, if_pos rfl]
          exact ⟨rfl, rfl, rfl⟩
        · rw [if_neg hzb, if_neg hzb]
          exact ⟨rfl, rfl, rfl⟩
      · rw [if_neg h512, if_neg h512]
        rw [if_neg (show ¬ State.ReadHeader = State.Done from by decide),
            if_neg (show ¬ State.ReadHeader = State.Done from by decide)]
        exact ih _ _ _ _ _ _ pb1 pb2 _ _

set_option maxRecDepth 100000 in
/-- Counterexample to C3 as stated: after decoding one regular-file
header (a reachable state with padding_bytes = 509), close leaves
padding_bytes at 509, while a freshly constructed decoder has
padding_bytes = 0; hence the closed decoder does not equal the fresh
one componentwise. -/
theorem counterexample_C3 :
    (close (filter init exHeaderReg 600 false).impl).padding_bytes = 509 ∧
    init.padding_bytes = 0 ∧
    close (filter init exHeaderReg 600 false).impl ≠ init := by
  refine ⟨by decide, rfl, by decide⟩

/-- C3 (amended): close resets every component except padding_bytes to
its freshly-constructed value (state ReadHeader, cleared buffer and
name, zero counters and size); padding_bytes keeps its prior value.
Subsequent decoding nevertheless behaves exactly as from a freshly
constructed decoder: the stale padding_bytes is overwritten by the next
header parse before the skip logic ever reads it, so the consumed
input, the produced output and the result of every following advance
call agree with those of a fresh decoder. -/
theorem claim_C3 : ∀ (i : Impl) (src : List Nat) (dsp : Nat) (flush : Bool),
    close i = { init with padding_bytes := i.padding_bytes } ∧
    (filter (close i) src dsp flush).rest = (filter init src dsp flush).rest ∧
    (filter (close i) src dsp flush).out = (filter init src dsp flush).out ∧
    (filter (close i) src dsp flush).more = (filter init src dsp flush).more := by
  intro i src dsp flush
  refine ⟨rfl, ?_⟩
  unfold filter
  exact filterGo_pb_frame (8 * (src.length + dsp) + 8) [] 0 0 0 0 []
    i.padding_bytes 0 src dsp

/-! Handling of non-regular entries (claim C1). -/

theorem settleN_succ_eq (n : Nat) (i : Impl) :
    settleN (n + 1) i =
      match settle1 i with
      | none => i
      | some j => settleN n j := rfl

theorem settle_step1 {i j : Impl} (h1 : settle1 i = some j) (h2 : settle1 j = none) :
    settle i = j := by
  show settleN 3 i = j
  rw [show (3 : Nat) = 2 + 1 from rfl, settleN_succ_eq, h1]
  show settleN (1 + 1) j = j
  rw [settleN_succ_eq, h2]

set_option maxRecDepth 100000 in
/-- Counterexample to C1 as stated: a directory-type entry (typeflag 53)
with declared size 1.  The claim predicts that the entire declared
payload (1 byte) and its padding (511 bytes) are consumed before the
following header, so after the 512 bytes that follow the header none
would be buffered as header bytes.  The code consumes only the padding
(511 bytes), so the 512th trailing byte is buffered into the next
header: header_bytes_read ends at 1, not 0, refuting the claimed
boundary placement (output is indeed empty). -/
theorem counterexample_C1 :
    (filter init (exHeaderDir ++ List.replicate 512 9) 600 false).out = [] ∧
    (filter init (exHeaderDir ++ List.replicate 512 9) 600 false).rest = [] ∧
    (filter init (exHeaderDir ++ List.replicate 512 9) 600 false).impl.header_bytes_read
      = 1 ∧
    ¬ (filter init (exHeaderDir ++ List.replicate 512 9) 600 false).impl.header_bytes_read
      = 0 := by
  refine ⟨by decide, by decide, by decide, by decide⟩

/-- C1 (amended): an entry whose typeflag is neither the digit zero nor
the zero byte contributes no bytes to the output, and exactly
(512 - declared_size mod 512) mod 512 bytes - the padding for the
declared size, not the payload plus padding - are consumed after the
header; the decoder is then ready to read the next header at that
position.  (For the common case declared_size = 0 this is the next
512-byte block boundary.) -/
theorem claim_C1 : ∀ (hdr junk : List Nat) (dsp : Nat) (flush : Bool),
    hdr.length = 512 →
    is_zero_block_impl hdr = false →
    is_regular_file hdr = false →
    junk.length = paddingFor (parse_file_size_impl (sizeField hdr)) →
    0 < dsp →
    (filter init (hdr ++ junk) dsp flush).out = [] ∧
    (filter init (hdr ++ junk) dsp flush).rest = [] ∧
    (filter init (hdr ++ junk) dsp flush).more = true ∧
    settle (filter init (hdr ++ junk) dsp flush).impl =
      { afterHeader hdr with
          padding_bytes_skipped := paddingFor (parse_file_size_impl (sizeField hdr)),
          state := State.ReadHeader } := by
  intro hdr junk dsp flush hlen hzb hreg hjunk hdsp
  unfold filter
  have hlsrc : (hdr ++ junk).length = 512 + junk.length := by
    rw [List.length_append, hlen]
  have hne : hdr ++ junk ≠ [] := by
    intro hc
    have hc2 : (hdr ++ junk).length = 0 := by rw [hc]; rfl
    omega
  obtain ⟨m, hm⟩ : ∃ m, 8 * ((hdr ++ junk).length + dsp) + 8 = m + 1 + 1 :=
    ⟨8 * ((hdr ++ junk).length + dsp) + 6, by omega⟩
  rw [hm]
  rw [filterGo_rh _ _ _ _ rfl (not_or.mpr ⟨hne, by omega⟩)]
  simp only []
  have ht : min (ssub 512 init.header_bytes_read) (hdr ++ junk).length = 512 := by
    rw [show init.header_bytes_read = 0 from rfl, ssub_512 (by omega), hlsrc]
    omega
  rw [ht, List.take_left' hlen, List.drop_left' hlen]
  have hbres : setRange (resize init.header_buffer) init.header_bytes_read hdr = hdr := by
    rw [show init.header_buffer = [] from rfl, resize_nil]
    unfold setRange
    rw [show init.header_bytes_read = 0 from rfl, hlen]
    rw [List.take_zero, List.nil_append]
    rw [show (0 + 512 : Nat) = 512 from by norm_num]
    rw [List.drop_replicate]
    rw [show (512 - 512 : Nat) = 0 from by norm_num, List.replicate_zero, List.append_nil]
  have hacc : rhAccum init hdr = afterHeader hdr := by
    unfold rhAccum
    simp only []
    rw [hbres]
    rw [show sadd init.header_bytes_read hdr.length = 512 from by
      rw [show init.header_bytes_read = 0 from rfl, hlen]
      rw [sadd_of_lt (by rw [W_eq]; omega)]]
    rw [if_pos rfl, hzb]
    rw [if_neg (show ¬ (false = true) from by decide)]
  rw [hacc]
  have hstate : (afterHeader hdr).state = State.SkipPadding := by
    simp [afterHeader, hreg]
  rw [if_neg (show ¬ ((afterHeader hdr).state = State.Done) from by
    rw [hstate]; decide)]
  have hpadW : paddingFor (parse_file_size_impl (sizeField hdr)) < W :=
    lt_W_of_le_512 (le_of_lt (paddingFor_lt _))
  by_cases hj0 : junk = []
  · subst hj0
    have hpad0 : paddingFor (parse_file_size_impl (sizeField hdr)) = 0 := by
      rw [← hjunk]
      rfl
    rw [filterGo_exit (Or.inl rfl)]
    refine ⟨rfl, rfl, rfl, ?_⟩
    have h1 : settle1 (afterHeader hdr) = some (spAccum (afterHeader hdr) 0) := by
      unfold settle1
      rw [hstate]
      rw [if_pos (show ssub (afterHeader hdr).padding_bytes
          (afterHeader hdr).padding_bytes_skipped = 0 from by
        rw [show (afterHeader hdr).padding_bytes =
            paddingFor (parse_file_size_impl (sizeField hdr)) from rfl, hpad0]
        rw [show (afterHeader hdr).padding_bytes_skipped = 0 from rfl]
        decide)]
    have hsp : spAccum (afterHeader hdr) 0 =
        { afterHeader hdr with padding_bytes_skipped := 0,
                               state := State.ReadHeader } := by
      unfold spAccum
      simp only []
      rw [show (afterHeader hdr).padding_bytes_skipped = 0 from rfl]
      rw [show sadd 0 0 = 0 from by decide]
      rw [if_pos (show (0 : Nat) = smod (afterHeader hdr).padding_bytes from by
        rw [show (afterHeader hdr).padding_bytes =
            paddingFor (parse_file_size_impl (sizeField hdr)) from rfl, hpad0]
        decide)]
    have h2 : settle1 (spAccum (afterHeader hdr) 0) = none := by
      rw [hsp]
      exact settle1_none_of_state (Or.inl rfl)
    rw [settle_step1 h1 h2, hsp, hpad0]
  · rw [filterGo_sp _ _ _ _ hstate (not_or.mpr ⟨hj0, by omega⟩)]
    simp only []
    have ht2 : min (ssub (afterHeader hdr).padding_bytes
        (afterHeader hdr).padding_bytes_skipped) junk.length =
        paddingFor (parse_file_size_impl (sizeField hdr)) := by
      rw [show (afterHeader hdr).padding_bytes =
          paddingFor (parse_file_size_impl (sizeField hdr)) from rfl]
      rw [show (afterHeader hdr).padding_bytes_skipped = 0 from rfl]
      rw [ssub_of_le (Nat.zero_le _) hpadW, hjunk]
      omega
    rw [ht2]
    have hspAcc : spAccum (afterHeader hdr)
        (paddingFor (parse_file_size_impl (sizeField hdr))) =
        { afterHeader hdr with
            padding_bytes_skipped := paddingFor (parse_file_size_impl (sizeField hdr)),
            state := State.ReadHeader } := by
      unfold spAccum
      simp only []
      rw [show (afterHeader hdr).padding_bytes_skipped = 0 from rfl]
      rw [show sadd 0 (paddingFor (parse_file_size_impl (sizeField hdr))) =
          paddingFor (parse_file_size_impl (sizeField hdr)) from by
        unfold sadd
        rw [Nat.zero_add]
        exact Nat.mod_eq_of_lt hpadW]
      rw [if_pos (show paddingFor (parse_file_size_impl (sizeField hdr)) =
          smod (afterHeader hdr).padding_bytes from by
        rw [show (afterHeader hdr).padding_bytes =
            paddingFor (parse_file_size_impl (sizeField hdr)) from rfl]
        rw [smod_of_lt hpadW])]
    rw [hspAcc]
    have hdropj : junk.drop (paddingFor (parse_file_size_impl (sizeField hdr))) = [] := by
      rw [← hjunk]
      exact List.drop_length junk
    rw [hdropj, filterGo_exit (Or.inl rfl)]
    refine ⟨rfl, rfl, rfl, ?_⟩
    exact settle_of_rh rfl

set_option maxRecDepth 100000 in
/-- Witness for C1 at a concrete input: a directory-type entry with
declared size 1; after the header, exactly 511 bytes (the padding for
size 1) are consumed, no output is produced and the decoder is ready at
the next header. -/
theorem witness_C1 :
    (filter init (exHeaderDir ++ List.replicate 511 9) 600 false).out = [] ∧
    (filter init (exHeaderDir ++ List.replicate 511 9) 600 false).rest = [] ∧
    (filter init (exHeaderDir ++ List.replicate 511 9) 600 false).more = true ∧
    settle (filter init (exHeaderDir ++ List.replicate 511 9) 600 false).impl =
      { afterHeader exHeaderDir with
          padding_bytes_skipped :=
            paddingFor (parse_file_size_impl (sizeField exHeaderDir)),
          state := State.ReadHeader } :=
  claim_C1 exHeaderDir (List.replicate 511 9) 600 false (by decide) (by decide)
    (by decide) (by decide) (by decide)

/-! Characterization of the base-256 parser (claim C7). -/

theorem b256_loop1_step {cnt : Nat} (h : 8 < cnt + 1) (c : Nat) (rest : List Nat)
    (neg : Nat) :
    b256_loop1 (cnt + 1) c rest neg =
      if c ≠ neg then none
      else b256_loop1 cnt (rest.headD 0 % 256) rest.tail neg := by
  simp only [b256_loop1, if_pos h]

theorem b256_loop1_stop {cnt : Nat} (h : ¬ 8 < cnt + 1) (c : Nat) (rest : List Nat)
    (neg : Nat) :
    b256_loop1 (cnt + 1) c rest neg = some (cnt + 1, c, rest) := by
  simp only [b256_loop1, if_neg h]

theorem b256_loop1_12 (c1 b1 b2 b3 b4 b5 b6 b7 b8 b9 b10 b11 neg : Nat) :
    b256_loop1 12 c1 [b1, b2, b3, b4, b5, b6, b7, b8, b9, b10, b11] neg =
      if c1 = neg ∧ b1 % 256 = neg ∧ b2 % 256 = neg ∧ b3 % 256 = neg
      then some (8, b4 % 256, [b5, b6, b7, b8, b9, b10, b11])
      else none := by
  rw [show (12 : Nat) = 11 + 1 from rfl, b256_loop1_step (by omega)]
  by_cases h1 : c1 = neg
  · rw [if_neg (not_not_intro h1)]
    simp only [List.headD_cons, List.tail_cons]
    rw [show (11 : Nat) = 10 + 1 from rfl, b256_loop1_step (by omega)]
    by_cases h2 : b1 % 256 = neg
    · rw [if_neg (not_not_intro h2)]
      simp only [List.headD_cons, List.tail_cons]
      rw [show (10 : Nat) = 9 + 1 from rfl, b256_loop1_step (by omega)]
      by_cases h3 : b2 % 256 = neg
      · rw [if_neg (not_not_intro h3)]
        simp only [List.headD_cons, List.tail_cons]
        rw [show (9 : Nat) = 8 + 1 from rfl, b256_loop1_step (by omega)]
        by_cases h4 : b3 % 256 = neg
        · rw [if_neg (not_not_intro h4)]
          simp only [List.headD_cons, List.tail_cons]
          rw [show (8 : Nat) = 7 + 1 from rfl, b256_loop1_stop (by omega)]
          rw [if_pos ⟨h1, h2, h3, h4⟩]
        · rw [if_pos h4, if_neg (fun hc => h4 hc.2.2.2)]
      · rw [if_pos h3, if_neg (fun hc => h3 hc.2.2.1)]
    · rw [if_pos h2, if_neg (fun hc => h2 hc.2.1)]
  · rw [if_pos h1, if_neg (fun hc => h1 hc.1)]

set_option maxRecDepth 4096 in
theorem b256_loop2_8 (l c d1 d2 d3 d4 d5 d6 d7 : Nat) :
    b256_loop2 8 l c [d1, d2, d3, d4, d5, d6, d7] =
      (((((((l % 2 ^ 56 * 256 + c % 256) % 2 ^ 56 * 256 + d1 % 256 % 256)
         % 2 ^ 56 * 256 + d2 % 256 % 256) % 2 ^ 56 * 256 + d3 % 256 % 256)
         % 2 ^ 56 * 256 + d4 % 256 % 256) % 2 ^ 56 * 256 + d5 % 256 % 256)
         % 2 ^ 56 * 256 + d6 % 256 % 256) % 2 ^ 56 * 256 + d7 % 256 % 256 := rfl

set_option maxHeartbeats 1000000 in
/-- Core characterization of parse_base256_impl on a 12-byte field: the
parser returns the field's signed value clamped to the int64_t range. -/
theorem b256_char : ∀ bs : List Nat, bs.length = 12 → (∀ b ∈ bs, b < 256) →
    parse_base256_impl bs 12 = clamp64 (signedFieldVal bs) := by
  intro bs hlen hval
  rcases bs with _ | ⟨b0, bs⟩
  · simp at hlen
  rcases bs with _ | ⟨b1, bs⟩
  · simp at hlen
  rcases bs with _ | ⟨b2, bs⟩
  · simp at hlen
  rcases bs with _ | ⟨b3, bs⟩
  · simp at hlen
  rcases bs with _ | ⟨b4, bs⟩
  · simp at hlen
  rcases bs with _ | ⟨b5, bs⟩
  · simp at hlen
  rcases bs with _ | ⟨b6, bs⟩
  · simp at hlen
  rcases bs with _ | ⟨b7, bs⟩
  · simp at hlen
  rcases bs with _ | ⟨b8, bs⟩
  · simp at hlen
  rcases bs with _ | ⟨b9, bs⟩
  · simp at hlen
  rcases bs with _ | ⟨b10, bs⟩
  · simp at hlen
  rcases bs with _ | ⟨b11, bs⟩
  · simp at hlen
  rcases bs with _ | ⟨b12, bs⟩
  · clear hlen
    have hv0 : b0 < 256 := hval _ (by simp)
    have hv1 : b1 < 256 := hval _ (by simp)
    have hv2 : b2 < 256 := hval _ (by simp)
    have hv3 : b3 < 256 := hval _ (by simp)
    have hv4 : b4 < 256 := hval _ (by simp)
    have hv5 : b5 < 256 := hval _ (by simp)
    have hv6 : b6 < 256 := hval _ (by simp)
    have hv7 : b7 < 256 := hval _ (by simp)
    have hv8 : b8 < 256 := hval _ (by simp)
    have hv9 : b9 < 256 := hval _ (by simp)
    have hv10 : b10 < 256 := hval _ (by simp)
    have hv11 : b11 < 256 := hval _ (by simp)
    clear hval
    unfold parse_base256_impl signedFieldVal clamp64 beNat
    simp only [List.headD_cons, List.tail_cons, List.foldl_cons, List.foldl_nil]
    simp only [Nat.mod_eq_of_lt hv0]
    by_cases hsgn : 64 ≤ b0 % 128
    · simp only [if_pos hsgn]
      rw [b256_loop1_12]
      by_cases hok : b0 % 128 + 128 = 255 ∧ b1 % 256 = 255 ∧ b2 % 256 = 255 ∧
          b3 % 256 = 255
      · rw [if_pos hok]
        simp only []
        by_cases hb4 : b4 % 256 / 128 ≠ 255 / 128
        · rw [if_pos hb4]
          simp only [W_eq] at *
          split_ifs <;> first | omega | exact absurd rfl (by assumption) | exact False.elim (by assumption)
        · rw [if_neg hb4, b256_loop2_8]
          unfold toInt64
          simp only [W_eq] at *
          split_ifs <;> first | omega | exact absurd rfl (by assumption) | exact False.elim (by assumption)
      · rw [if_neg hok]
        simp only [W_eq] at *
        split_ifs <;> first | omega | exact absurd rfl (by assumption) | exact False.elim (by assumption)
    · simp only [if_neg hsgn]
      rw [b256_loop1_12]
      by_cases hok : b0 % 128 = 0 ∧ b1 % 256 = 0 ∧ b2 % 256 = 0 ∧ b3 % 256 = 0
      · rw [if_pos hok]
        simp only []
        by_cases hb4 : b4 % 256 / 128 ≠ 0 / 128
        · rw [if_pos hb4]
          simp only [W_eq] at *
          split_ifs <;> first | omega | exact absurd rfl (by assumption) | exact False.elim (by assumption)
        · rw [if_neg hb4, b256_loop2_8]
          unfold toInt64
          simp only [W_eq] at *
          split_ifs <;> first | omega | exact absurd rfl (by assumption) | exact False.elim (by assumption)
      · rw [if_neg hok]
        simp only [W_eq] at *
        split_ifs <;> first | omega | exact absurd rfl (by assumption) | exact False.elim (by assumption)
  · have h13 : (12 : Nat) = 13 + bs.length := by simpa using hlen
    omega

theorem encodeBase256_valid (v : Int) : ∀ b ∈ encodeBase256 v, b < 256 := by
  unfold encodeBase256
  intro b hb
  simp only [List.mem_cons, List.not_mem_nil, or_false] at hb
  rcases hb with rfl | rfl | rfl | rfl | rfl | rfl | rfl | rfl | rfl | rfl | rfl | rfl <;>
    (try split_ifs) <;> omega

theorem mod256_mod256 (a : Nat) : a % 256 % 256 = a % 256 :=
  Nat.mod_mod_of_dvd a dvd_rfl

theorem fold_bytes_pos (u : Nat) :
    (((((((((((0 * 256 + 0) * 256 + u / 2 ^ 80 % 256) * 256 + u / 2 ^ 72 % 256) * 256 + u / 2 ^ 64 % 256) * 256 + u / 2 ^ 56 % 256) * 256 + u / 2 ^ 48 % 256) * 256 + u / 2 ^ 40 % 256) * 256 + u / 2 ^ 32 % 256) * 256 + u / 2 ^ 24 % 256) * 256 + u / 2 ^ 16 % 256) * 256 + u / 2 ^ 8 % 256) * 256 + u % 256 = u % 2 ^ 88 := by
  rw [show (2 : Nat) ^ 88 = 2 ^ 80 * 256 from by norm_num, Nat.mod_mul]
  rw [show (2 : Nat) ^ 80 = 2 ^ 72 * 256 from by norm_num, Nat.mod_mul]
  rw [show (2 : Nat) ^ 72 = 2 ^ 64 * 256 from by norm_num, Nat.mod_mul]
  rw [show (2 : Nat) ^ 64 = 2 ^ 56 * 256 from by norm_num, Nat.mod_mul]
  rw [show (2 : Nat) ^ 56 = 2 ^ 48 * 256 from by norm_num, Nat.mod_mul]
  rw [show (2 : Nat) ^ 48 = 2 ^ 40 * 256 from by norm_num, Nat.mod_mul]
  rw [show (2 : Nat) ^ 40 = 2 ^ 32 * 256 from by norm_num, Nat.mod_mul]
  rw [show (2 : Nat) ^ 32 = 2 ^ 24 * 256 from by norm_num, Nat.mod_mul]
  rw [show (2 : Nat) ^ 24 = 2 ^ 16 * 256 from by norm_num, Nat.mod_mul]
  rw [show (2 : Nat) ^ 16 = 2 ^ 8 * 256 from by norm_num, Nat.mod_mul]
  rw [show (2 : Nat) ^ 8 = 256 from by norm_num]
  ring

theorem fold_bytes_neg (u : Nat) :
    (((((((((((0 * 256 + 255) * 256 + u / 2 ^ 80 % 256) * 256 + u / 2 ^ 72 % 256) * 256 + u / 2 ^ 64 % 256) * 256 + u / 2 ^ 56 % 256) * 256 + u / 2 ^ 48 % 256) * 256 + u / 2 ^ 40 % 256) * 256 + u / 2 ^ 32 % 256) * 256 + u / 2 ^ 24 % 256) * 256 + u / 2 ^ 16 % 256) * 256 + u / 2 ^ 8 % 256) * 256 + u % 256 = 255 * 2 ^ 88 + u % 2 ^ 88 := by
  rw [show (2 : Nat) ^ 88 = 2 ^ 80 * 256 from by norm_num, Nat.mod_mul]
  rw [show (2 : Nat) ^ 80 = 2 ^ 72 * 256 from by norm_num, Nat.mod_mul]
  rw [show (2 : Nat) ^ 72 = 2 ^ 64 * 256 from by norm_num, Nat.mod_mul]
  rw [show (2 : Nat) ^ 64 = 2 ^ 56 * 256 from by norm_num, Nat.mod_mul]
  rw [show (2 : Nat) ^ 56 = 2 ^ 48 * 256 from by norm_num, Nat.mod_mul]
  rw [show (2 : Nat) ^ 48 = 2 ^ 40 * 256 from by norm_num, Nat.mod_mul]
  rw [show (2 : Nat) ^ 40 = 2 ^ 32 * 256 from by norm_num, Nat.mod_mul]
  rw [show (2 : Nat) ^ 32 = 2 ^ 24 * 256 from by norm_num, Nat.mod_mul]
  rw [show (2 : Nat) ^ 24 = 2 ^ 16 * 256 from by norm_num, Nat.mod_mul]
  rw [show (2 : Nat) ^ 16 = 2 ^ 8 * 256 from by norm_num, Nat.mod_mul]
  rw [show (2 : Nat) ^ 8 = 256 from by norm_num]
  ring

theorem signedFieldVal_encode (v : Int) (h1 : -(2 ^ 63) ≤ v) (h2 : v < 2 ^ 63) :
    signedFieldVal (encodeBase256 v) = v := by
  unfold signedFieldVal encodeBase256 beNat
  simp only [List.headD_cons, List.tail_cons, List.foldl_cons, List.foldl_nil]
  obtain ⟨u, hQ⟩ : ∃ u, (v % (2 ^ 96 : Int)).toNat = u := ⟨_, rfl⟩
  rw [hQ]
  have hu : (u : Int) = v % 2 ^ 96 := by
    rw [← hQ]
    exact Int.toNat_of_nonneg (Int.emod_nonneg v (by norm_num))
  clear hQ
  have hub : u < 2 ^ 96 := by omega
  by_cases hv : 0 ≤ v
  · have h88 : u / 2 ^ 88 % 256 = 0 := by omega
    rw [h88]
    rw [if_pos (show (0 : Nat) < 128 from by norm_num)]
    rw [if_neg (show ¬ (64 ≤ (0 + 128) % 128) from by norm_num)]
    rw [show ((0 + 128) % 128 : Nat) % 256 = 0 from by norm_num]
    simp only [mod256_mod256]
    rw [fold_bytes_pos]
    rw [if_pos (show u % 2 ^ 88 < 2 ^ 95 from by omega)]
    omega
  · have h88 : u / 2 ^ 88 % 256 = 255 := by omega
    rw [h88]
    rw [if_neg (show ¬ (255 : Nat) < 128 from by norm_num)]
    rw [if_pos (show 64 ≤ (255 : Nat) % 128 from by norm_num)]
    rw [show ((255 : Nat) % 128 + 128) % 256 = 255 from by norm_num]
    simp only [mod256_mod256]
    rw [fold_bytes_neg]
    rw [if_neg (show ¬ (255 * 2 ^ 88 + u % 2 ^ 88 < 2 ^ 95) from by omega)]
    omega

/-- C7: the base-256 parser round-trips the 12-byte big-endian
two's-complement encoding (high bit of the first byte set as the
base-256 marker) of every int64 value, with the sign read from bit 0x40
of the first byte; and on every 12-byte field the parser returns the
field's signed value clamped into the int64 range, so out-of-range
fields yield the int64 maximum (positive overflow) or minimum (negative
overflow) instead of failing. -/
theorem claim_C7 :
    (∀ v : Int, -(2 ^ 63) ≤ v → v < 2 ^ 63 →
      parse_base256_impl (encodeBase256 v) 12 = v) ∧
    (∀ bs : List Nat, bs.length = 12 → (∀ b ∈ bs, b < 256) →
      parse_base256_impl bs 12 = clamp64 (signedFieldVal bs)) := by
  constructor
  · intro v h1 h2
    rw [b256_char (encodeBase256 v) rfl (encodeBase256_valid v)]
    rw [signedFieldVal_encode v h1 h2]
    unfold clamp64
    omega
  · exact b256_char

/-- Witness for C7 at concrete inputs: the value 8589934592 (which does
not fit the 11-digit octal field) round-trips through the base-256
encoding, and the 12-byte field starting with byte 64 (negative sign
bit, magnitude far below the int64 minimum) clamps. -/
theorem witness_C7 :
    parse_base256_impl (encodeBase256 8589934592) 12 = 8589934592 ∧
    parse_base256_impl (64 :: List.replicate 11 0) 12 =
      clamp64 (signedFieldVal (64 :: List.replicate 11 0)) :=
  ⟨claim_C7.1 8589934592 (by decide) (by decide),
   claim_C7.2 (64 :: List.replicate 11 0) (by decide) (by decide)⟩

/-! Chunk-independence of decoding (claim C2). -/

theorem setRange_length {l : List Nat} {i : Nat} {v : List Nat}
    (h : i + v.length ≤ l.length) : (setRange l i v).length = l.length := by
  simp only [setRange, List.length_append, List.length_take, List.length_drop]
  omega

theorem resize_length {l : List Nat} (h : l.length = 0 ∨ l.length = 512) :
    (resize l).length = 512 := by
  unfold resize
  split_ifs with h1
  · simp only [List.length_append, List.length_replicate]
    omega
  · omega

theorem setRange_cons (l : List Nat) (i b : Nat) (c : List Nat) (h : i < l.length) :
    setRange l i (b :: c) = setRange (setRange l i [b]) (i + 1) c := by
  unfold setRange
  have hA : (List.take i l ++ [b]).length = i + 1 := by
    simp only [List.length_append, List.length_take, List.length_cons, List.length_nil]
    omega
  rw [List.take_append_eq_append_take, List.drop_append_eq_append_drop]
  rw [List.take_of_length_le (le_of_eq hA)]
  rw [show List.drop (i + 1 + c.length) (List.take i l ++ [b]) = [] from
    List.drop_eq_nil_of_le (by omega)]
  rw [show i + 1 - (List.take i l ++ [b]).length = 0 from by omega]
  rw [List.take_zero]
  rw [show i + 1 + c.length - (List.take i l ++ [b]).length = c.length from by omega]
  rw [List.drop_drop]
  simp only [List.append_nil, List.nil_append, List.length_cons, List.length_nil]
  rw [show i + (0 + 1) + c.length = i + (c.length + 1) from by omega]
  simp only [List.append_assoc, List.singleton_append, List.cons_append, List.nil_append]

/-! Settle steps and the states they can produce. -/

theorem ssub_eq_zero_iff {a b : Nat} : ssub a b = 0 ↔ a % W = b % W := by
  unfold ssub
  rw [W_eq]
  constructor <;> intro h <;> omega

theorem settle1_some_state {i j : Impl} (h : settle1 i = some j) :
    (i.state = State.ReadFileData ∧ j.state = State.SkipPadding) ∨
    (i.state = State.SkipPadding ∧ j.state = State.ReadHeader) := by
  unfold settle1 at h
  cases hs : i.state with
  | ReadHeader => rw [hs] at h; exact absurd h (by simp)
  | Done => rw [hs] at h; exact absurd h (by simp)
  | ReadFileData =>
    rw [hs] at h
    by_cases hz : ssub i.file_size_ i.file_bytes_read = 0
    · rw [if_pos hz] at h
      have hj : j = rfdAccum i 0 := (Option.some_inj.mp h).symm
      left
      refine ⟨rfl, ?_⟩
      have hcond : sadd i.file_bytes_read 0 = smod i.file_size_ := by
        have h2 := ssub_eq_zero_iff.mp hz
        unfold sadd smod
        rw [W_eq] at h2 ⊢
        omega
      rw [hj]
      show (if sadd i.file_bytes_read 0 = smod i.file_size_
            then State.SkipPadding else i.state) = State.SkipPadding
      rw [if_pos hcond]
    · rw [if_neg hz] at h
      exact absurd h (by simp)
  | SkipPadding =>
    rw [hs] at h
    by_cases hz : ssub i.padding_bytes i.padding_bytes_skipped = 0
    · rw [if_pos hz] at h
      have hj : j = spAccum i 0 := (Option.some_inj.mp h).symm
      right
      refine ⟨rfl, ?_⟩
      have hcond : sadd i.padding_bytes_skipped 0 = smod i.padding_bytes := by
        have h2 := ssub_eq_zero_iff.mp hz
        unfold sadd smod
        rw [W_eq] at h2 ⊢
        omega
      rw [hj]
      show (if sadd i.padding_bytes_skipped 0 = smod i.padding_bytes
            then State.ReadHeader else i.state) = State.ReadHeader
      rw [if_pos hcond]
    · rw [if_neg hz] at h
      exact absurd h (by simp)

theorem settle_eq_of_step {i j : Impl} (h : settle1 i = some j) :
    settle i = settle j := by
  have h3 : settle i = settleN 2 j := by
    show settleN 3 i = settleN 2 j
    rw [show (3 : Nat) = 2 + 1 from rfl, settleN_succ_eq, h]
  rcases settle1_some_state h with ⟨hi, hj⟩ | ⟨hi, hj⟩
  · cases hs : settle1 j with
    | none =>
      rw [h3, settleN_of_none hs 2]
      show j = settleN 3 j
      rw [settleN_of_none hs 3]
    | some k =>
      rcases settle1_some_state hs with ⟨hj2, hk2⟩ | ⟨hj2, hk2⟩
      · rw [hj2] at hj; exact absurd hj (by simp)
      · have hkn : settle1 k = none := settle1_none_of_state (Or.inl hk2)
        have h4 : settleN 2 j = settleN 1 k := by
          rw [show (2 : Nat) = 1 + 1 from rfl, settleN_succ_eq, hs]
        have h5 : settle j = settleN 2 k := by
          show settleN 3 j = settleN 2 k
          rw [show (3 : Nat) = 2 + 1 from rfl, settleN_succ_eq, hs]
        rw [h3, h4, h5, settleN_of_none hkn 1, settleN_of_none hkn 2]
  · have hjn : settle1 j = none := settle1_none_of_state (Or.inl hj)
    rw [h3, settleN_of_none hjn 2]
    show j = settleN 3 j
    rw [settleN_of_none hjn 3]

/-! Step lemmas for the reference byte machine. -/

theorem runBytes_cons (i : Impl) (b : Nat) (rest : List Nat) :
    runBytes i (b :: rest) =
      match (settle i).state with
      | State.Done => ⟨settle i, b :: rest, []⟩
      | State.ReadHeader => runBytes (rhAccum (settle i) [b]) rest
      | State.ReadFileData =>
        ⟨(runBytes (rfdAccum (settle i) 1) rest).impl,
         (runBytes (rfdAccum (settle i) 1) rest).lo,
         b :: (runBytes (rfdAccum (settle i) 1) rest).out⟩
      | State.SkipPadding => runBytes (spAccum (settle i) 1) rest := by
  conv_lhs => unfold runBytes

theorem runBytes_cons_done {i : Impl} (hs : (settle i).state = State.Done)
    (b : Nat) (rest : List Nat) :
    runBytes i (b :: rest) = ⟨settle i, b :: rest, []⟩ := by
  rw [runBytes_cons, hs]

theorem runBytes_cons_rh {i : Impl} (hs : (settle i).state = State.ReadHeader)
    (b : Nat) (rest : List Nat) :
    runBytes i (b :: rest) = runBytes (rhAccum (settle i) [b]) rest := by
  rw [runBytes_cons, hs]

theorem runBytes_cons_rfd {i : Impl} (hs : (settle i).state = State.ReadFileData)
    (b : Nat) (rest : List Nat) :
    runBytes i (b :: rest) =
      ⟨(runBytes (rfdAccum (settle i) 1) rest).impl,
       (runBytes (rfdAccum (settle i) 1) rest).lo,
       b :: (runBytes (rfdAccum (settle i) 1) rest).out⟩ := by
  rw [runBytes_cons, hs]

theorem runBytes_cons_sp {i : Impl} (hs : (settle i).state = State.SkipPadding)
    (b : Nat) (rest : List Nat) :
    runBytes i (b :: rest) = runBytes (spAccum (settle i) 1) rest := by
  rw [runBytes_cons, hs]

theorem runBytes_done_out {i : Impl} (h : (settle i).state = State.Done)
    (q : List Nat) : (runBytes i q).out = [] := by
  cases q with
  | nil => rfl
  | cons b rest => rw [runBytes_cons_done h]

theorem runBytes_congr {i i' : Impl} (h : settle i = settle i') (b : Nat)
    (rest : List Nat) : runBytes i (b :: rest) = runBytes i' (b :: rest) := by
  rw [runBytes_cons, runBytes_cons, h]

theorem runBytes_congr_parts {i i' : Impl} (h : settle i = settle i')
    (p : List Nat) :
    (runBytes i p).out = (runBytes i' p).out ∧
    (runBytes i p).lo = (runBytes i' p).lo ∧
    settle (runBytes i p).impl = settle (runBytes i' p).impl := by
  cases p with
  | nil => exact ⟨rfl, rfl, h⟩
  | cons b rest => rw [runBytes_congr h b rest]; exact ⟨rfl, rfl, rfl⟩

/-! Concatenation of reference-machine runs: when the first run consumed
its whole input, running on the concatenation is running the two parts in
sequence. -/

theorem runBytes_append : ∀ (p : List Nat) (i : Impl) (q : List Nat),
    (runBytes i p).lo = [] →
    runBytes i (p ++ q) =
      ⟨(runBytes (runBytes i p).impl q).impl,
       (runBytes (runBytes i p).impl q).lo,
       (runBytes i p).out ++ (runBytes (runBytes i p).impl q).out⟩ := by
  intro p
  induction p with
  | nil =>
    intro i q _
    show runBytes i q = _
    rfl
  | cons b p ih =>
    intro i q hlo
    cases hs : (settle i).state with
    | Done =>
      rw [runBytes_cons_done hs] at hlo
      exact absurd hlo (by simp)
    | ReadHeader =>
      rw [runBytes_cons_rh hs] at hlo ⊢
      rw [show (b :: p) ++ q = b :: (p ++ q) from rfl, runBytes_cons_rh hs]
      exact ih (rhAccum (settle i) [b]) q hlo
    | ReadFileData =>
      rw [runBytes_cons_rfd hs] at hlo ⊢
      rw [show (b :: p) ++ q = b :: (p ++ q) from rfl, runBytes_cons_rfd hs]
      simp only [] at hlo
      rw [ih (rfdAccum (settle i) 1) q hlo]
      simp only [List.cons_append]
    | SkipPadding =>
      rw [runBytes_cons_sp hs] at hlo ⊢
      rw [show (b :: p) ++ q = b :: (p ++ q) from rfl, runBytes_cons_sp hs]
      exact ih (spAccum (settle i) 1) q hlo

/-! Bulk lemmas: consuming a block of bytes one at a time through the
reference machine equals the single accumulated loop iteration of
filter. -/

theorem rhAccum_one {i : Impl} (b : Nat) (h1 : i.header_bytes_read + 1 < 512) :
    rhAccum i [b] = { i with
      header_buffer := setRange (resize i.header_buffer) i.header_bytes_read [b],
      header_bytes_read := i.header_bytes_read + 1 } := by
  unfold rhAccum
  have e : sadd i.header_bytes_read [b].length = i.header_bytes_read + 1 := by
    simp only [List.length_cons, List.length_nil]
    unfold sadd
    rw [W_eq]
    omega
  rw [e, if_neg (by omega)]

theorem rhAccum_cons {i : Impl} (b : Nat) (c : List Nat)
    (hlen : i.header_buffer.length = 0 ∨ i.header_buffer.length = 512)
    (h1 : i.header_bytes_read + 1 < 512)
    (h2 : i.header_bytes_read + (c.length + 1) ≤ 512) :
    rhAccum i (b :: c) = rhAccum (rhAccum i [b]) c := by
  have hrl : (resize i.header_buffer).length = 512 := resize_length hlen
  have hsl : (setRange (resize i.header_buffer) i.header_bytes_read [b]).length = 512 := by
    rw [setRange_length (by simp only [List.length_cons, List.length_nil, hrl]; omega)]
    exact hrl
  rw [rhAccum_one b h1]
  unfold rhAccum
  simp only []
  have e1 : sadd i.header_bytes_read (b :: c).length = i.header_bytes_read + c.length + 1 := by
    simp only [List.length_cons]
    unfold sadd
    rw [W_eq]
    omega
  have e2 : sadd (i.header_bytes_read + 1) c.length = i.header_bytes_read + c.length + 1 := by
    unfold sadd
    rw [W_eq]
    omega
  rw [e1, e2]
  rw [resize_full hsl]
  rw [← setRange_cons (resize i.header_buffer) i.header_bytes_read b c (by rw [hrl]; omega)]

theorem rh_bulk : ∀ (c : List Nat), ∀ (i : Impl), c ≠ [] →
    i.state = State.ReadHeader →
    (i.header_buffer.length = 0 ∨ i.header_buffer.length = 512) →
    i.header_bytes_read + c.length ≤ 512 →
    i.header_bytes_read < 512 →
    runBytes i c = ⟨rhAccum i c, [], []⟩ := by
  intro c
  induction c with
  | nil => intro i hne _ _ _ _; exact absurd rfl hne
  | cons b c ih =>
    intro i _ hst hlen hle hlt
    have hset : settle i = i := settle_of_rh hst
    have hs : (settle i).state = State.ReadHeader := by rw [hset]; exact hst
    rw [runBytes_cons_rh hs, hset]
    cases c with
    | nil => rfl
    | cons b2 c2 =>
      simp only [List.length_cons] at hle
      have hacc := rhAccum_one (i := i) b (by omega)
      have hsl : (setRange (resize i.header_buffer) i.header_bytes_read [b]).length = 512 := by
        rw [setRange_length (by
          simp only [List.length_cons, List.length_nil, resize_length hlen]
          omega)]
        exact resize_length hlen
      have hst2 : (rhAccum i [b]).state = State.ReadHeader := by rw [hacc]; exact hst
      have hlen2 : (rhAccum i [b]).header_buffer.length = 0 ∨
          (rhAccum i [b]).header_buffer.length = 512 := by
        right
        rw [hacc]
        exact hsl
      have hle2 : (rhAccum i [b]).header_bytes_read + (b2 :: c2).length ≤ 512 := by
        rw [hacc]
        show i.header_bytes_read + 1 + (b2 :: c2).length ≤ 512
        simp only [List.length_cons]
        omega
      have hlt2 : (rhAccum i [b]).header_bytes_read < 512 := by
        rw [hacc]
        show i.header_bytes_read + 1 < 512
        omega
      rw [ih (rhAccum i [b]) (by simp) hst2 hlen2 hle2 hlt2]
      rw [← rhAccum_cons b (b2 :: c2) hlen (by omega)
        (by simp only [List.length_cons]; omega)]

theorem settle_of_rfd_mid {i : Impl} (hst : i.state = State.ReadFileData)
    (h : ssub i.file_size_ i.file_bytes_read ≠ 0) : settle i = i :=
  settleN_of_none (by unfold settle1; rw [hst]; rw [if_neg h]) 3

theorem settle_of_sp_mid {i : Impl} (hst : i.state = State.SkipPadding)
    (h : ssub i.padding_bytes i.padding_bytes_skipped ≠ 0) : settle i = i :=
  settleN_of_none (by unfold settle1; rw [hst]; rw [if_neg h]) 3

theorem rfdAccum_mid {i : Impl} (h1 : i.file_size_ < W)
    (h2 : i.file_bytes_read + 1 < i.file_size_) :
    rfdAccum i 1 = { i with file_bytes_read := i.file_bytes_read + 1 } := by
  have e : sadd i.file_bytes_read 1 = i.file_bytes_read + 1 := by
    unfold sadd
    rw [W_eq] at h1 ⊢
    omega
  show ({ i with
          file_bytes_read := sadd i.file_bytes_read 1
          state := (if sadd i.file_bytes_read 1 = smod i.file_size_
                    then State.SkipPadding else i.state) } : Impl) = _
  rw [e, smod_of_lt h1, if_neg (by omega)]

theorem rfdAccum_comp {i : Impl} (n : Nat) (h1 : i.file_size_ < W)
    (h2 : i.file_bytes_read + 1 < i.file_size_)
    (h3 : i.file_bytes_read + 1 + n ≤ i.file_size_) :
    rfdAccum (rfdAccum i 1) n = rfdAccum i (n + 1) := by
  rw [rfdAccum_mid h1 h2]
  unfold rfdAccum
  simp only []
  have e1 : sadd (i.file_bytes_read + 1) n = i.file_bytes_read + n + 1 := by
    unfold sadd
    rw [W_eq] at h1 ⊢
    omega
  have e2 : sadd i.file_bytes_read (n + 1) = i.file_bytes_read + n + 1 := by
    unfold sadd
    rw [W_eq] at h1 ⊢
    omega
  rw [e1, e2]

theorem rfd_bulk : ∀ (c : List Nat), ∀ (i : Impl), c ≠ [] →
    i.state = State.ReadFileData →
    i.file_size_ < W →
    i.file_bytes_read + c.length ≤ i.file_size_ →
    runBytes i c = ⟨rfdAccum i c.length, [], c⟩ := by
  intro c
  induction c with
  | nil => intro i hne _ _ _; exact absurd rfl hne
  | cons b c ih =>
    intro i _ hst hW hle
    simp only [List.length_cons] at hle
    have hnz : ssub i.file_size_ i.file_bytes_read ≠ 0 := by
      rw [ssub_of_le (by omega) hW]
      omega
    have hset : settle i = i := settle_of_rfd_mid hst hnz
    have hs : (settle i).state = State.ReadFileData := by rw [hset]; exact hst
    rw [runBytes_cons_rfd hs, hset]
    cases c with
    | nil => rfl
    | cons b2 c2 =>
      simp only [List.length_cons] at hle
      have hacc := rfdAccum_mid (i := i) hW (by omega)
      have hst2 : (rfdAccum i 1).state = State.ReadFileData := by rw [hacc]; exact hst
      have hW2 : (rfdAccum i 1).file_size_ < W := by rw [hacc]; exact hW
      have hle2 : (rfdAccum i 1).file_bytes_read + (b2 :: c2).length ≤
          (rfdAccum i 1).file_size_ := by
        rw [hacc]
        show i.file_bytes_read + 1 + (b2 :: c2).length ≤ i.file_size_
        simp only [List.length_cons]
        omega
      rw [ih (rfdAccum i 1) (by simp) hst2 hW2 hle2]
      simp only []
      rw [rfdAccum_comp (b2 :: c2).length hW (by omega)
        (by simp only [List.length_cons]; omega)]
      rfl

theorem spAccum_mid {i : Impl} (h1 : i.padding_bytes < W)
    (h2 : i.padding_bytes_skipped + 1 < i.padding_bytes) :
    spAccum i 1 = { i with padding_bytes_skipped := i.padding_bytes_skipped + 1 } := by
  have e : sadd i.padding_bytes_skipped 1 = i.padding_bytes_skipped + 1 := by
    unfold sadd
    rw [W_eq] at h1 ⊢
    omega
  show ({ i with
          padding_bytes_skipped := sadd i.padding_bytes_skipped 1
          state := (if sadd i.padding_bytes_skipped 1 = smod i.padding_bytes
                    then State.ReadHeader else i.state) } : Impl) = _
  rw [e, smod_of_lt h1, if_neg (by omega)]

theorem spAccum_comp {i : Impl} (n : Nat) (h1 : i.padding_bytes < W)
    (h2 : i.padding_bytes_skipped + 1 < i.padding_bytes)
    (h3 : i.padding_bytes_skipped + 1 + n ≤ i.padding_bytes) :
    spAccum (spAccum i 1) n = spAccum i (n + 1) := by
  rw [spAccum_mid h1 h2]
  unfold spAccum
  simp only []
  have e1 : sadd (i.padding_bytes_skipped + 1) n = i.padding_bytes_skipped + n + 1 := by
    unfold sadd
    rw [W_eq] at h1 ⊢
    omega
  have e2 : sadd i.padding_bytes_skipped (n + 1) = i.padding_bytes_skipped + n + 1 := by
    unfold sadd
    rw [W_eq] at h1 ⊢
    omega
  rw [e1, e2]

theorem sp_bulk : ∀ (c : List Nat), ∀ (i : Impl), c ≠ [] →
    i.state = State.SkipPadding →
    i.padding_bytes < W →
    i.padding_bytes_skipped + c.length ≤ i.padding_bytes →
    runBytes i c = ⟨spAccum i c.length, [], []⟩ := by
  intro c
  induction c with
  | nil => intro i hne _ _ _; exact absurd rfl hne
  | cons b c ih =>
    intro i _ hst hW hle
    simp only [List.length_cons] at hle
    have hnz : ssub i.padding_bytes i.padding_bytes_skipped ≠ 0 := by
      rw [ssub_of_le (by omega) hW]
      omega
    have hset : settle i = i := settle_of_sp_mid hst hnz
    have hs : (settle i).state = State.SkipPadding := by rw [hset]; exact hst
    rw [runBytes_cons_sp hs, hset]
    cases c with
    | nil => rfl
    | cons b2 c2 =>
      simp only [List.length_cons] at hle
      have hacc := spAccum_mid (i := i) hW (by omega)
      have hst2 : (spAccum i 1).state = State.SkipPadding := by rw [hacc]; exact hst
      have hW2 : (spAccum i 1).padding_bytes < W := by rw [hacc]; exact hW
      have hle2 : (spAccum i 1).padding_bytes_skipped + (b2 :: c2).length ≤
          (spAccum i 1).padding_bytes := by
        rw [hacc]
        show i.padding_bytes_skipped + 1 + (b2 :: c2).length ≤ i.padding_bytes
        simp only [List.length_cons]
        omega
      rw [ih (spAccum i 1) (by simp) hst2 hW2 hle2]
      rw [spAccum_comp (b2 :: c2).length hW (by omega)
        (by simp only [List.length_cons]; omega)]
      rfl

/-! Invariant preservation. -/

theorem sadd_lt_W (a b : Nat) : sadd a b < W := by
  unfold sadd
  rw [W_eq]
  omega

theorem parse_octal_go_lt_W : ∀ (p : List Nat) (n acc : Nat), acc < W →
    parse_octal_go p n acc < W := by
  intro p
  induction p with
  | nil =>
    intro n acc h
    cases n with
    | zero => exact h
    | succ n => exact h
  | cons b rest ih =>
    intro n acc h
    cases n with
    | zero => exact h
    | succ n =>
      show (if b = 0 then acc
            else parse_octal_go rest n
              (if 48 ≤ b ∧ b ≤ 55 then sadd (acc * 8) (b - 48) else acc)) < W
      split_ifs with h1 h2
      · exact h
      · exact ih n _ (sadd_lt_W _ _)
      · exact ih n _ h

theorem parse_file_size_lt_W (l : List Nat) : parse_file_size_impl l < W := by
  unfold parse_file_size_impl
  split_ifs
  · have hWpos : (0 : Int) < (W : Nat) := by rw [W_eq]; norm_num
    have h0 : (0 : Int) ≤ parse_base256_impl l 12 % (W : Nat) :=
      Int.emod_nonneg _ (by omega)
    have h2 : parse_base256_impl l 12 % (W : Nat) < (W : Nat) :=
      Int.emod_lt_of_pos _ hWpos
    omega
  · exact parse_octal_go_lt_W l 12 0 (by rw [W_eq]; norm_num)

theorem afterHeader_inv {hb : List Nat} (h : hb.length = 512) :
    Inv (afterHeader hb) := by
  refine ⟨Or.inr h, fun _ => show (0 : Nat) < 512 from by norm_num,
    show (0 : Nat) ≤ 512 from by norm_num, ?_, Nat.zero_le _, ?_, Nat.zero_le _⟩
  · show (if is_regular_file hb = true then parse_file_size_impl (sizeField hb) else 0) < W
    split_ifs
    · exact parse_file_size_lt_W _
    · rw [W_eq]; norm_num
  · exact paddingFor_lt _

theorem rhAccum_inv {i : Impl} (c : List Nat)
    (hbuf : i.header_buffer.length = 0 ∨ i.header_buffer.length = 512)
    (hfsW : i.file_size_ < W) (hfbr : i.file_bytes_read ≤ i.file_size_)
    (hpb : i.padding_bytes < 512) (hpbs : i.padding_bytes_skipped ≤ i.padding_bytes)
    (hbr_lt : i.header_bytes_read < 512)
    (hle : i.header_bytes_read + c.length ≤ 512) :
    Inv (rhAccum i c) := by
  have hsl : (setRange (resize i.header_buffer) i.header_bytes_read c).length = 512 := by
    rw [setRange_length (by rw [resize_length hbuf]; omega)]
    exact resize_length hbuf
  have e : sadd i.header_bytes_read c.length = i.header_bytes_read + c.length := by
    unfold sadd
    rw [W_eq]
    omega
  unfold rhAccum
  rw [e]
  by_cases h512 : i.header_bytes_read + c.length = 512
  · rw [if_pos h512]
    by_cases hzb : is_zero_block_impl
        (setRange (resize i.header_buffer) i.header_bytes_read c) = true
    · rw [if_pos hzb]
      exact ⟨Or.inr hsl, fun hD => absurd rfl hD,
        show i.header_bytes_read + c.length ≤ 512 from by omega,
        hfsW, hfbr, hpb, hpbs⟩
    · rw [if_neg hzb]
      exact afterHeader_inv hsl
  · rw [if_neg h512]
    exact ⟨Or.inr hsl,
      fun _ => show i.header_bytes_read + c.length < 512 from by omega,
      show i.header_bytes_read + c.length ≤ 512 from by omega,
      hfsW, hfbr, hpb, hpbs⟩

theorem flagOf_le (i : Impl) : flagOf i ≤ 1 := by
  unfold flagOf
  split_ifs <;> omega

theorem stateW_le (s : State) : stateW s ≤ 3 := by
  cases s <;> decide

/-! The filter loop is simulated by the reference byte machine: every
call consumes some prefix of its input, produces exactly the machine's
output on that prefix, and leaves a state equal to the machine's state
up to pending transition-only iterations. -/

theorem filterGo_sim : ∀ (fuel : Nat) (i : Impl) (src : List Nat) (dsp : Nat),
    Inv i → mu i src dsp < fuel →
    ∃ k, k ≤ src.length ∧
      (filterGo fuel i src dsp).rest = src.drop k ∧
      (filterGo fuel i src dsp).out = (runBytes i (src.take k)).out ∧
      (runBytes i (src.take k)).lo = [] ∧
      settle (filterGo fuel i src dsp).impl = settle (runBytes i (src.take k)).impl ∧
      Inv (filterGo fuel i src dsp).impl ∧
      ((filterGo fuel i src dsp).more = false →
        (filterGo fuel i src dsp).impl.state = State.Done) := by
  intro fuel
  induction fuel with
  | zero =>
    intro i src dsp _ hmu
    exact absurd hmu (by omega)
  | succ fuel ih =>
    intro i src dsp hInv hmu
    by_cases hguard : src = [] ∨ dsp = 0
    · rw [filterGo_exit hguard]
      refine ⟨0, Nat.zero_le _, (List.drop_zero src).symm, rfl, rfl, rfl, hInv, ?_⟩
      intro h
      exact absurd h (by simp)
    · have hsrc : src ≠ [] := fun h => hguard (Or.inl h)
      have hdsp : dsp ≠ 0 := fun h => hguard (Or.inr h)
      have hsrclen : 0 < src.length := List.length_pos.mpr hsrc
      obtain ⟨hbuf, hhbrD, hhbr, hfsW, hfbr, hpb, hpbs⟩ := hInv
      cases hst : i.state with
      | Done =>
        rw [filterGo_done fuel i src dsp hst hguard]
        exact ⟨0, Nat.zero_le _, (List.drop_zero src).symm, rfl, rfl, rfl,
          ⟨hbuf, hhbrD, hhbr, hfsW, hfbr, hpb, hpbs⟩, fun _ => hst⟩
      | ReadHeader =>
        have hbrlt : i.header_bytes_read < 512 := hhbrD (by rw [hst]; decide)
        rw [filterGo_rh fuel i src dsp hst hguard]
        simp only []
        set t := min (ssub 512 i.header_bytes_read) src.length with htdef
        have hssub : ssub 512 i.header_bytes_read = 512 - i.header_bytes_read :=
          ssub_512 (le_of_lt hbrlt)
        have htle : t ≤ src.length := min_le_right _ _
        have ht1 : 1 ≤ t := by
          rw [htdef, hssub]
          omega
        have htake_len : (src.take t).length = t := by
          rw [List.length_take]
          omega
        have htake_ne : src.take t ≠ [] := by
          intro h
          have h2 := congrArg List.length h
          rw [htake_len] at h2
          simp at h2
          omega
        have htub : t ≤ 512 - i.header_bytes_read := by
          rw [htdef, hssub]
          exact min_le_left _ _
        have hm := rh_bulk (src.take t) i htake_ne hst hbuf
          (by rw [htake_len]; omega) hbrlt
        have hInv2 : Inv (rhAccum i (src.take t)) :=
          rhAccum_inv (src.take t) hbuf hfsW hfbr hpb hpbs hbrlt
            (by rw [htake_len]; omega)
        by_cases hdone : (rhAccum i (src.take t)).state = State.Done
        · rw [if_pos hdone]
          refine ⟨t, htle, rfl, ?_, ?_, ?_, hInv2, fun _ => hdone⟩
          · rw [hm]
          · rw [hm]
          · rw [hm]
        · rw [if_neg hdone]
          have hmu2 : mu (rhAccum i (src.take t)) (src.drop t) dsp < fuel := by
            have hf2 := flagOf_le (rhAccum i (src.take t))
            have hs2 := stateW_le (rhAccum i (src.take t)).state
            have hf0 := flagOf_le i
            unfold mu at hmu ⊢
            rw [List.length_drop]
            omega
          obtain ⟨k2, hk2, hrest, hout, hlo, hset, hInvr, hmore⟩ :=
            ih (rhAccum i (src.take t)) (src.drop t) dsp hInv2 hmu2
          refine ⟨t + k2, ?_, ?_, ?_, ?_, ?_, hInvr, hmore⟩
          · have := List.length_drop t src
            omega
          · exact hrest.trans (by rw [List.drop_drop])
          · rw [List.take_add,
              runBytes_append (src.take t) i ((src.drop t).take k2) (by rw [hm]),
              hm]
            exact hout
          · rw [List.take_add,
              runBytes_append (src.take t) i ((src.drop t).take k2) (by rw [hm]),
              hm]
            exact hlo
          · rw [List.take_add,
              runBytes_append (src.take t) i ((src.drop t).take k2) (by rw [hm]),
              hm]
            exact hset
      | ReadFileData =>
        have hbrlt : i.header_bytes_read < 512 := hhbrD (by rw [hst]; decide)
        rw [filterGo_rfd fuel i src dsp hst hguard]
        simp only []
        set t := min (ssub i.file_size_ i.file_bytes_read) (min src.length dsp)
          with htdef
        have hssub : ssub i.file_size_ i.file_bytes_read =
            i.file_size_ - i.file_bytes_read := ssub_of_le hfbr hfsW
        by_cases ht0 : t = 0
        · have hfeq : i.file_bytes_read = i.file_size_ := by
            have h2 : min (i.file_size_ - i.file_bytes_read) (min src.length dsp) = 0 := by
              rw [← hssub, ← htdef]
              exact ht0
            omega
          have hstep : settle1 i = some (rfdAccum i 0) := by
            unfold settle1
            rw [hst]
            rw [if_pos (by rw [hssub]; omega)]
          have hsettle_eq : settle i = settle (rfdAccum i 0) := settle_eq_of_step hstep
          rw [ht0]
          simp only [List.drop_zero, List.take_zero, List.nil_append, Nat.sub_zero]
          have hst2 : (rfdAccum i 0).state = State.SkipPadding := by
            show (if sadd i.file_bytes_read 0 = smod i.file_size_
                  then State.SkipPadding else i.state) = State.SkipPadding
            rw [if_pos (by unfold sadd smod; rw [W_eq]; omega)]
          have e0 : sadd i.file_bytes_read 0 = i.file_bytes_read := by
            unfold sadd
            rw [W_eq] at hfsW ⊢
            omega
          have hInv2 : Inv (rfdAccum i 0) := by
            refine ⟨hbuf, fun _ => hbrlt, hhbr, hfsW, ?_, hpb, hpbs⟩
            show sadd i.file_bytes_read 0 ≤ i.file_size_
            rw [e0]
            exact hfbr
          have hmu2 : mu (rfdAccum i 0) src dsp < fuel := by
            have hflag : flagOf (rfdAccum i 0) = flagOf i := rfl
            have hsw : stateW (rfdAccum i 0).state = 2 := by rw [hst2]; rfl
            have hsw0 : stateW i.state = 3 := by rw [hst]; rfl
            unfold mu at hmu ⊢
            rw [hflag, hsw]
            rw [hsw0] at hmu
            omega
          obtain ⟨k2, hk2, hrest, hout, hlo, hset, hInvr, hmore⟩ :=
            ih (rfdAccum i 0) src dsp hInv2 hmu2
          obtain ⟨po, pl, ps⟩ := runBytes_congr_parts hsettle_eq (src.take k2)
          exact ⟨k2, hk2, hrest, hout.trans po.symm, pl.trans hlo,
            hset.trans ps.symm, hInvr, hmore⟩
        · have ht1 : 1 ≤ t := by omega
          have htle : t ≤ src.length := le_trans (min_le_right _ _) (min_le_left _ _)
          have htd : t ≤ dsp := le_trans (min_le_right _ _) (min_le_right _ _)
          have htfs : i.file_bytes_read + t ≤ i.file_size_ := by
            have h2 : t ≤ i.file_size_ - i.file_bytes_read := by
              rw [← hssub]
              exact min_le_left _ _
            omega
          have htake_len : (src.take t).length = t := by
            rw [List.length_take]
            omega
          have htake_ne : src.take t ≠ [] := by
            intro h
            have h2 := congrArg List.length h
            rw [htake_len] at h2
            simp at h2
            omega
          have hm0 := rfd_bulk (src.take t) i htake_ne hst hfsW
            (by rw [htake_len]; exact htfs)
          have hm : runBytes i (src.take t) = ⟨rfdAccum i t, [], src.take t⟩ := by
            rw [hm0, htake_len]
          have e : sadd i.file_bytes_read t = i.file_bytes_read + t := by
            unfold sadd
            rw [W_eq] at hfsW ⊢
            omega
          have hInv2 : Inv (rfdAccum i t) := by
            refine ⟨hbuf, fun _ => hbrlt, hhbr, hfsW, ?_, hpb, hpbs⟩
            show sadd i.file_bytes_read t ≤ i.file_size_
            rw [e]
            exact htfs
          have hmu2 : mu (rfdAccum i t) (src.drop t) (dsp - t) < fuel := by
            have hflag : flagOf (rfdAccum i t) = flagOf i := rfl
            have hs2 := stateW_le (rfdAccum i t).state
            have hsw0 : stateW i.state = 3 := by rw [hst]; rfl
            have hf0 := flagOf_le i
            unfold mu at hmu ⊢
            rw [hflag, List.length_drop]
            rw [hsw0] at hmu
            omega
          obtain ⟨k2, hk2, hrest, hout, hlo, hset, hInvr, hmore⟩ :=
            ih (rfdAccum i t) (src.drop t) (dsp - t) hInv2 hmu2
          refine ⟨t + k2, ?_, ?_, ?_, ?_, ?_, hInvr, hmore⟩
          · have := List.length_drop t src
            omega
          · exact hrest.trans (by rw [List.drop_drop])
          · show src.take t ++ (filterGo fuel (rfdAccum i t) (src.drop t) (dsp - t)).out = _
            rw [hout]
            rw [List.take_add,
              runBytes_append (src.take t) i ((src.drop t).take k2) (by rw [hm]),
              hm]
          · rw [List.take_add,
              runBytes_append (src.take t) i ((src.drop t).take k2) (by rw [hm]),
              hm]
            exact hlo
          · rw [List.take_add,
              runBytes_append (src.take t) i ((src.drop t).take k2) (by rw [hm]),
              hm]
            exact hset
      | SkipPadding =>
        have hbrlt : i.header_bytes_read < 512 := hhbrD (by rw [hst]; decide)
        have hpbW : i.padding_bytes < W := lt_W_of_le_512 (by omega)
        rw [filterGo_sp fuel i src dsp hst hguard]
        simp only []
        set t := min (ssub i.padding_bytes i.padding_bytes_skipped) src.length
          with htdef
        have hssub : ssub i.padding_bytes i.padding_bytes_skipped =
            i.padding_bytes - i.padding_bytes_skipped := ssub_of_le hpbs hpbW
        by_cases ht0 : t = 0
        · have hfeq : i.padding_bytes_skipped = i.padding_bytes := by
            have h2 : min (i.padding_bytes - i.padding_bytes_skipped) src.length = 0 := by
              rw [← hssub, ← htdef]
              exact ht0
            omega
          have hstep : settle1 i = some (spAccum i 0) := by
            unfold settle1
            rw [hst]
            show (if ssub i.padding_bytes i.padding_bytes_skipped = 0
                  then some (spAccum i 0) else none) = some (spAccum i 0)
            rw [if_pos (by rw [hssub]; omega)]
          have hsettle_eq : settle i = settle (spAccum i 0) := settle_eq_of_step hstep
          rw [ht0]
          simp only [List.drop_zero]
          have hst2 : (spAccum i 0).state = State.ReadHeader := by
            show (if sadd i.padding_bytes_skipped 0 = smod i.padding_bytes
                  then State.ReadHeader else i.state) = State.ReadHeader
            rw [if_pos (by unfold sadd smod; rw [W_eq]; omega)]
          have e0 : sadd i.padding_bytes_skipped 0 = i.padding_bytes_skipped := by
            unfold sadd
            rw [W_eq]
            omega
          have hInv2 : Inv (spAccum i 0) := by
            refine ⟨hbuf, fun _ => hbrlt, hhbr, hfsW, hfbr, hpb, ?_⟩
            show sadd i.padding_bytes_skipped 0 ≤ i.padding_bytes
            rw [e0]
            exact hpbs
          have hmu2 : mu (spAccum i 0) src dsp < fuel := by
            have hflag : flagOf (spAccum i 0) = flagOf i := rfl
            have hsw : stateW (spAccum i 0).state = 1 := by rw [hst2]; rfl
            have hsw0 : stateW i.state = 2 := by rw [hst]; rfl
            unfold mu at hmu ⊢
            rw [hflag, hsw]
            rw [hsw0] at hmu
            omega
          obtain ⟨k2, hk2, hrest, hout, hlo, hset, hInvr, hmore⟩ :=
            ih (spAccum i 0) src dsp hInv2 hmu2
          obtain ⟨po, pl, ps⟩ := runBytes_congr_parts hsettle_eq (src.take k2)
          exact ⟨k2, hk2, hrest, hout.trans po.symm, pl.trans hlo,
            hset.trans ps.symm, hInvr, hmore⟩
        · have ht1 : 1 ≤ t := by omega
          have htle : t ≤ src.length := min_le_right _ _
          have htpb : i.padding_bytes_skipped + t ≤ i.padding_bytes := by
            have h2 : t ≤ i.padding_bytes - i.padding_bytes_skipped := by
              rw [← hssub]
              exact min_le_left _ _
            omega
          have htake_len : (src.take t).length = t := by
            rw [List.length_take]
            omega
          have htake_ne : src.take t ≠ [] := by
            intro h
            have h2 := congrArg List.length h
            rw [htake_len] at h2
            simp at h2
            omega
          have hm0 := sp_bulk (src.take t) i htake_ne hst hpbW
            (by rw [htake_len]; exact htpb)
          have hm : runBytes i (src.take t) = ⟨spAccum i t, [], []⟩ := by
            rw [hm0, htake_len]
          have e : sadd i.padding_bytes_skipped t = i.padding_bytes_skipped + t := by
            unfold sadd
            rw [W_eq]
            omega
          have hInv2 : Inv (spAccum i t) := by
            refine ⟨hbuf, fun _ => hbrlt, hhbr, hfsW, hfbr, hpb, ?_⟩
            show sadd i.padding_bytes_skipped t ≤ i.padding_bytes
            rw [e]
            exact htpb
          have hmu2 : mu (spAccum i t) (src.drop t) dsp < fuel := by
            have hflag : flagOf (spAccum i t) = flagOf i := rfl
            have hs2 := stateW_le (spAccum i t).state
            have hsw0 : stateW i.state = 2 := by rw [hst]; rfl
            have hf0 := flagOf_le i
            unfold mu at hmu ⊢
            rw [hflag, List.length_drop]
            rw [hsw0] at hmu
            omega
          obtain ⟨k2, hk2, hrest, hout, hlo, hset, hInvr, hmore⟩ :=
            ih (spAccum i t) (src.drop t) dsp hInv2 hmu2
          refine ⟨t + k2, ?_, ?_, ?_, ?_, ?_, hInvr, hmore⟩
          · have := List.length_drop t src
            omega
          · exact hrest.trans (by rw [List.drop_drop])
          · rw [List.take_add,
              runBytes_append (src.take t) i ((src.drop t).take k2) (by rw [hm]),
              hm]
            exact hout
          · rw [List.take_add,
              runBytes_append (src.take t) i ((src.drop t).take k2) (by rw [hm]),
              hm]
            exact hlo
          · rw [List.take_add,
              runBytes_append (src.take t) i ((src.drop t).take k2) (by rw [hm]),
              hm]
            exact hset

/-! The driver: repeated filter calls over a call schedule. -/

theorem filter_sim (i : Impl) (src : List Nat) (dsp : Nat) (flush : Bool)
    (hInv : Inv i) :
    ∃ k, k ≤ src.length ∧
      (filter i src dsp flush).rest = src.drop k ∧
      (filter i src dsp flush).out = (runBytes i (src.take k)).out ∧
      (runBytes i (src.take k)).lo = [] ∧
      settle (filter i src dsp flush).impl = settle (runBytes i (src.take k)).impl ∧
      Inv (filter i src dsp flush).impl ∧
      ((filter i src dsp flush).more = false →
        (filter i src dsp flush).impl.state = State.Done) := by
  unfold filter
  refine filterGo_sim _ i src dsp hInv ?_
  have h1 := flagOf_le i
  have h2 := stateW_le i.state
  unfold mu
  omega

theorem drive_nil (i : Impl) (w : List Nat) : drive i w [] = ⟨i, w, [], false⟩ := rfl

theorem drive_cons (i : Impl) (w chunk : List Nat) (dsp : Nat)
    (calls : List (List Nat × Nat)) :
    drive i w ((chunk, dsp) :: calls) =
      if (filter i (w ++ chunk) dsp false).more then
        ⟨(drive (filter i (w ++ chunk) dsp false).impl
            (filter i (w ++ chunk) dsp false).rest calls).impl,
         (drive (filter i (w ++ chunk) dsp false).impl
            (filter i (w ++ chunk) dsp false).rest calls).window,
         (filter i (w ++ chunk) dsp false).out ++
           (drive (filter i (w ++ chunk) dsp false).impl
              (filter i (w ++ chunk) dsp false).rest calls).out,
         (drive (filter i (w ++ chunk) dsp false).impl
            (filter i (w ++ chunk) dsp false).rest calls).stopped⟩
      else ⟨(filter i (w ++ chunk) dsp false).impl,
            (filter i (w ++ chunk) dsp false).rest,
            (filter i (w ++ chunk) dsp false).out, true⟩ := rfl

theorem drive_sim : ∀ (calls : List (List Nat × Nat)) (i : Impl) (w : List Nat),
    Inv i → (drive i w calls).stopped = true →
    (drive i w calls).out = (runBytes i (w ++ chunks calls)).out := by
  intro calls
  induction calls with
  | nil =>
    intro i w _ hstop
    rw [drive_nil] at hstop
    exact absurd hstop (by simp)
  | cons call calls ih =>
    obtain ⟨chunk, dsp⟩ := call
    intro i w hInv hstop
    obtain ⟨k, hk, hrest, hout, hlo, hset, hInvr, hmoreD⟩ :=
      filter_sim i (w ++ chunk) dsp false hInv
    have hlist : (w ++ chunk).take k ++ ((w ++ chunk).drop k ++ chunks calls) =
        w ++ chunks ((chunk, dsp) :: calls) := by
      show _ = w ++ (chunk ++ chunks calls)
      rw [← List.append_assoc, List.take_append_drop, List.append_assoc]
    have happ := runBytes_append ((w ++ chunk).take k) i
      ((w ++ chunk).drop k ++ chunks calls) hlo
    rw [drive_cons] at hstop ⊢
    by_cases hm : (filter i (w ++ chunk) dsp false).more = true
    · rw [if_pos hm] at hstop ⊢
      have hd := ih (filter i (w ++ chunk) dsp false).impl
        (filter i (w ++ chunk) dsp false).rest hInvr hstop
      show (filter i (w ++ chunk) dsp false).out ++
          (drive (filter i (w ++ chunk) dsp false).impl
            (filter i (w ++ chunk) dsp false).rest calls).out = _
      rw [hd, hrest, hout]
      obtain ⟨po, _, _⟩ :=
        runBytes_congr_parts hset ((w ++ chunk).drop k ++ chunks calls)
      rw [po, ← hlist, happ]
    · have hm2 : (filter i (w ++ chunk) dsp false).more = false := by
        cases hval : (filter i (w ++ chunk) dsp false).more with
        | false => rfl
        | true => exact absurd hval hm
      rw [if_neg hm] at hstop ⊢
      show (filter i (w ++ chunk) dsp false).out = _
      have hD := hmoreD hm2
      have h1 : (settle (runBytes i ((w ++ chunk).take k)).impl).state =
          State.Done := by
        rw [← hset, settle_of_done hD]
        exact hD
      rw [hout, ← hlist, happ]
      show (runBytes i ((w ++ chunk).take k)).out =
        (runBytes i ((w ++ chunk).take k)).out ++
          (runBytes (runBytes i ((w ++ chunk).take k)).impl
            ((w ++ chunk).drop k ++ chunks calls)).out
      rw [runBytes_done_out h1, List.append_nil]

/-- C2: chunk-independence of decoding.  For a fixed archive byte
sequence src, any two schedules of advance calls (each call offering one
more input chunk and a per-call output capacity, with unconsumed input
carried over, repeated until the filter signals stop) whose chunks
concatenate to src produce identical concatenated output bytes;
in particular the result does not depend on how the bytes are chunked
across calls nor on the per-call output buffer sizes. -/
theorem claim_C2 (src : List Nat) (calls1 calls2 : List (List Nat × Nat))
    (h1 : chunks calls1 = src) (h2 : chunks calls2 = src)
    (hs1 : (drive init [] calls1).stopped = true)
    (hs2 : (drive init [] calls2).stopped = true) :
    (drive init [] calls1).out = (drive init [] calls2).out := by
  have hInv : Inv init := by decide
  rw [drive_sim calls1 init [] hInv hs1, drive_sim calls2 init [] hInv hs2]
  rw [h1, h2]

set_option maxRecDepth 100000 in
set_option maxHeartbeats 8000000 in
/-- Witness for C2: the 512-byte end-of-archive block offered in one
call agrees with the same bytes split into a 200-byte and a 312-byte
call, with one-byte output buffers. -/
theorem witness_C2 :
    chunks [(List.replicate 512 0, 1)] = List.replicate 512 0 ∧
    chunks [(List.replicate 200 0, 1), (List.replicate 312 0, 1)] =
      List.replicate 512 0 ∧
    (drive init [] [(List.replicate 512 0, 1)]).stopped = true ∧
    (drive init [] [(List.replicate 200 0, 1),
      (List.replicate 312 0, 1)]).stopped = true ∧
    (drive init [] [(List.replicate 512 0, 1)]).out =
      (drive init [] [(List.replicate 200 0, 1),
        (List.replicate 312 0, 1)]).out :=
  ⟨by decide, by decide, by decide, by decide,
   claim_C2 (List.replicate 512 0) [(List.replicate 512 0, 1)]
     [(List.replicate 200 0, 1), (List.replicate 312 0, 1)]
     (by decide) (by decide) (by decide) (by decide)⟩

end TarFilter
